import Mathlib

/-!
Verification of the outlook-ews backend router
(src/outlook-api-backend, function createRouter).

The development shallowly embeds the code of the router:

* the AES-256-CBC credential cipher used by the `encrypt` / `decrypt`
  helpers (the Node crypto primitives `createCipheriv` / `createDecipheriv`
  with algorithm `aes-256-cbc` are modelled bit-for-bit: the AES-256 block
  cipher of FIPS-197, CBC chaining, PKCS#7 padding, and the lenient Node
  `Buffer.from(s, "hex")` decoding that silently stops at the first invalid
  character);
* the Redis-backed record store (one hash per email with fields
  `password`, `calendarId`, `calendarIds`), modelled as a total map from
  email to a record of optional fields;
* the request handlers `authMiddleware`, `/check-login`, `/login`,
  `/add-calendar`, `/delete-calendar`, `/update-calendar-id` as pure
  state-passing functions.  Asynchronous I/O outcomes of the external EWS
  service (the inbox bind probe and the calendar folder enumeration) are
  passed in as explicit `Except` parameters.

Bytes are `Nat` values below 256; byte strings are `List Nat`.
-/

set_option maxRecDepth 100000

namespace EwsVault

/-! ## Bytes -/

/-- Byte xor.  The result is reduced mod 256, so it is always a byte. -/
def xorB (a b : Nat) : Nat := (a ^^^ b) % 256

/-- All elements of the list are bytes. -/
def Bytes (l : List Nat) : Prop := ∀ x ∈ l, x < 256

instance : DecidablePred Bytes := fun l =>
  decidable_of_iff (∀ x ∈ l, x < 256) Iff.rfl

/-! ## Hex encoding and decoding

`Buffer.toString("hex")` produces lowercase hex, two digits per byte.
`Buffer.from(s, "hex")` decodes pairs of hex digits (upper or lower case)
and stops silently at the first invalid character or at an odd trailing
digit, returning the bytes decoded so far.  This lenient behaviour is
load-bearing for the `decrypt` claims. -/

/-- Value of one hex digit, if the character is one (Node accepts both
cases). -/
def hexVal (c : Char) : Option Nat :=
  if 48 ≤ c.toNat ∧ c.toNat ≤ 57 then some (c.toNat - 48)
  else if 97 ≤ c.toNat ∧ c.toNat ≤ 102 then some (c.toNat - 87)
  else if 65 ≤ c.toNat ∧ c.toNat ≤ 70 then some (c.toNat - 55)
  else none

/-- Node hex decoding: consume pairs of digits, stop at the first invalid
pair, drop an odd trailing digit. -/
def hexDecode : List Char → List Nat
  | c1 :: c2 :: rest =>
    match hexVal c1, hexVal c2 with
    | some h, some l => (16 * h + l) :: hexDecode rest
    | _, _ => []
  | _ => []

/-- Lowercase hex digit for a value below 16: digits 0 to 9 map to the
character codes from 48, values 10 to 15 to the lowercase letters from
97. -/
def hexDigitChar (n : Nat) : Char :=
  let m := n % 16
  if m < 10 then Char.ofNat (48 + m) else Char.ofNat (87 + m)

/-- Two lowercase hex digits of one byte. -/
def hexByteChars (b : Nat) : List Char :=
  [hexDigitChar (b / 16 % 16), hexDigitChar (b % 16)]

/-- Lowercase hex of a byte string, as `Buffer.toString("hex")`. -/
def hexChars (bs : List Nat) : List Char := bs.flatMap hexByteChars

/-! ## The AES-256 block cipher (FIPS-197)

The state is the flat 16-byte list `b0 … b15`, column major:
state row `r`, column `c` is `b (r + 4 * c)`. -/

/-- AES forward S-box. -/
def sbox : List Nat :=
[99, 124, 119, 123, 242, 107, 111, 197, 48, 1, 103, 43, 254, 215, 171, 118,
  202, 130, 201, 125, 250, 89, 71, 240, 173, 212, 162, 175, 156, 164, 114, 192,
  183, 253, 147, 38, 54, 63, 247, 204, 52, 165, 229, 241, 113, 216, 49, 21,
  4, 199, 35, 195, 24, 150, 5, 154, 7, 18, 128, 226, 235, 39, 178, 117,
  9, 131, 44, 26, 27, 110, 90, 160, 82, 59, 214, 179, 41, 227, 47, 132,
  83, 209, 0, 237, 32, 252, 177, 91, 106, 203, 190, 57, 74, 76, 88, 207,
  208, 239, 170, 251, 67, 77, 51, 133, 69, 249, 2, 127, 80, 60, 159, 168,
  81, 163, 64, 143, 146, 157, 56, 245, 188, 182, 218, 33, 16, 255, 243, 210,
  205, 12, 19, 236, 95, 151, 68, 23, 196, 167, 126, 61, 100, 93, 25, 115,
  96, 129, 79, 220, 34, 42, 144, 136, 70, 238, 184, 20, 222, 94, 11, 219,
  224, 50, 58, 10, 73, 6, 36, 92, 194, 211, 172, 98, 145, 149, 228, 121,
  231, 200, 55, 109, 141, 213, 78, 169, 108, 86, 244, 234, 101, 122, 174, 8,
  186, 120, 37, 46, 28, 166, 180, 198, 232, 221, 116, 31, 75, 189, 139, 138,
  112, 62, 181, 102, 72, 3, 246, 14, 97, 53, 87, 185, 134, 193, 29, 158,
  225, 248, 152, 17, 105, 217, 142, 148, 155, 30, 135, 233, 206, 85, 40, 223,
  140, 161, 137, 13, 191, 230, 66, 104, 65, 153, 45, 15, 176, 84, 187, 22]

/-- AES inverse S-box. -/
def invSbox : List Nat :=
[82, 9, 106, 213, 48, 54, 165, 56, 191, 64, 163, 158, 129, 243, 215, 251,
  124, 227, 57, 130, 155, 47, 255, 135, 52, 142, 67, 68, 196, 222, 233, 203,
  84, 123, 148, 50, 166, 194, 35, 61, 238, 76, 149, 11, 66, 250, 195, 78,
  8, 46, 161, 102, 40, 217, 36, 178, 118, 91, 162, 73, 109, 139, 209, 37,
  114, 248, 246, 100, 134, 104, 152, 22, 212, 164, 92, 204, 93, 101, 182, 146,
  108, 112, 72, 80, 253, 237, 185, 218, 94, 21, 70, 87, 167, 141, 157, 132,
  144, 216, 171, 0, 140, 188, 211, 10, 247, 228, 88, 5, 184, 179, 69, 6,
  208, 44, 30, 143, 202, 63, 15, 2, 193, 175, 189, 3, 1, 19, 138, 107,
  58, 145, 17, 65, 79, 103, 220, 234, 151, 242, 207, 206, 240, 180, 230, 115,
  150, 172, 116, 34, 231, 173, 53, 133, 226, 249, 55, 232, 28, 117, 223, 110,
  71, 241, 26, 113, 29, 41, 197, 137, 111, 183, 98, 14, 170, 24, 190, 27,
  252, 86, 62, 75, 198, 210, 121, 32, 154, 219, 192, 254, 120, 205, 90, 244,
  31, 221, 168, 51, 136, 7, 199, 49, 177, 18, 16, 89, 39, 128, 236, 95,
  96, 81, 127, 169, 25, 181, 74, 13, 45, 229, 122, 159, 147, 201, 156, 239,
  160, 224, 59, 77, 174, 42, 245, 176, 200, 235, 187, 60, 131, 83, 153, 97,
  23, 43, 4, 126, 186, 119, 214, 38, 225, 105, 20, 99, 85, 33, 12, 125]

/-- Forward S-box lookup. -/
def subB (a : Nat) : Nat := sbox.getD (a % 256) 0

/-- Inverse S-box lookup. -/
def invSubB (a : Nat) : Nat := invSbox.getD (a % 256) 0

/-- Multiplication by x in GF(256), the AES xtime operation. -/
def xtime (a : Nat) : Nat :=
  let a1 := a % 256
  let b := (a1 * 2) % 256
  if 128 ≤ a1 then b ^^^ 27 else b

/-- GF(256) multiplication by 2. -/
def mulTwo (a : Nat) : Nat := xtime a

/-- GF(256) multiplication by 3. -/
def mulThree (a : Nat) : Nat := xorB (xtime a) a

/-- GF(256) multiplication by 9. -/
def mulNine (a : Nat) : Nat := xorB (xtime (xtime (xtime a))) a

/-- GF(256) multiplication by 11. -/
def mulEleven (a : Nat) : Nat := xorB (xorB (xtime (xtime (xtime a))) (xtime a)) a

/-- GF(256) multiplication by 13. -/
def mulThirteen (a : Nat) : Nat := xorB (xorB (xtime (xtime (xtime a))) (xtime (xtime a))) a

/-- GF(256) multiplication by 14. -/
def mulFourteen (a : Nat) : Nat :=
  xorB (xorB (xtime (xtime (xtime a))) (xtime (xtime a))) (xtime a)

/-- SubBytes. -/
def subBytes (s : List Nat) : List Nat := s.map subB

/-- InvSubBytes. -/
def invSubBytes (s : List Nat) : List Nat := s.map invSubB

/-- ShiftRows on the flat column-major state. -/
def shiftRows (s : List Nat) : List Nat :=
  match s with
  | [b0, b1, b2, b3, b4, b5, b6, b7, b8, b9, b10, b11, b12, b13, b14, b15] =>
    [b0, b5, b10, b15, b4, b9, b14, b3, b8, b13, b2, b7, b12, b1, b6, b11]
  | _ => s

/-- InvShiftRows on the flat column-major state. -/
def invShiftRows (s : List Nat) : List Nat :=
  match s with
  | [b0, b1, b2, b3, b4, b5, b6, b7, b8, b9, b10, b11, b12, b13, b14, b15] =>
    [b0, b13, b10, b7, b4, b1, b14, b11, b8, b5, b2, b15, b12, b9, b6, b3]
  | _ => s

/-- MixColumns on one column. -/
def mixCol (a b c d : Nat) : List Nat :=
  [xorB (xorB (mulTwo a) (mulThree b)) (xorB c d),
   xorB (xorB a (mulTwo b)) (xorB (mulThree c) d),
   xorB (xorB a b) (xorB (mulTwo c) (mulThree d)),
   xorB (xorB (mulThree a) b) (xorB c (mulTwo d))]

/-- InvMixColumns on one column. -/
def invMixCol (a b c d : Nat) : List Nat :=
  [xorB (xorB (mulFourteen a) (mulEleven b)) (xorB (mulThirteen c) (mulNine d)),
   xorB (xorB (mulNine a) (mulFourteen b)) (xorB (mulEleven c) (mulThirteen d)),
   xorB (xorB (mulThirteen a) (mulNine b)) (xorB (mulFourteen c) (mulEleven d)),
   xorB (xorB (mulEleven a) (mulThirteen b)) (xorB (mulNine c) (mulFourteen d))]

/-- MixColumns as a map on one four-byte column list (proof helper). -/
def mixColL (v : List Nat) : List Nat :=
  match v with
  | [a, b, c, d] => mixCol a b c d
  | _ => v

/-- InvMixColumns as a map on one four-byte column list (proof helper). -/
def invMixColL (v : List Nat) : List Nat :=
  match v with
  | [a, b, c, d] => invMixCol a b c d
  | _ => v

/-- MixColumns on the flat state. -/
def mixColumns (s : List Nat) : List Nat :=
  match s with
  | [b0, b1, b2, b3, b4, b5, b6, b7, b8, b9, b10, b11, b12, b13, b14, b15] =>
    mixCol b0 b1 b2 b3 ++ mixCol b4 b5 b6 b7 ++ mixCol b8 b9 b10 b11 ++ mixCol b12 b13 b14 b15
  | _ => s

/-- InvMixColumns on the flat state. -/
def invMixColumns (s : List Nat) : List Nat :=
  match s with
  | [b0, b1, b2, b3, b4, b5, b6, b7, b8, b9, b10, b11, b12, b13, b14, b15] =>
    invMixCol b0 b1 b2 b3 ++ invMixCol b4 b5 b6 b7 ++ invMixCol b8 b9 b10 b11 ++
      invMixCol b12 b13 b14 b15
  | _ => s

/-- AddRoundKey. -/
def addRK (s k : List Nat) : List Nat := List.zipWith xorB s k

/-- One key-schedule word. -/
abbrev Word := Nat × Nat × Nat × Nat

/-- SubWord of the key schedule. -/
def subWord (w : Word) : Word := (subB w.1, subB w.2.1, subB w.2.2.1, subB w.2.2.2)

/-- RotWord of the key schedule. -/
def rotWord (w : Word) : Word := (w.2.1, w.2.2.1, w.2.2.2, w.1)

/-- Componentwise xor of two words. -/
def xorWord (v w : Word) : Word :=
  (xorB v.1 w.1, xorB v.2.1 w.2.1, xorB v.2.2.1 w.2.2.1, xorB v.2.2.2 w.2.2.2)

/-- Round constant word for AES-256 (index 1 to 7). -/
def rconW (j : Nat) : Word := ([1, 2, 4, 8, 16, 32, 64].getD (j - 1) 0, 0, 0, 0)

/-- Word i of the raw 32-byte key, bytes reduced to the byte range. -/
def keyWord (key : List Nat) (i : Nat) : Word :=
  (key.getD (4 * i) 0 % 256, key.getD (4 * i + 1) 0 % 256,
   key.getD (4 * i + 2) 0 % 256, key.getD (4 * i + 3) 0 % 256)

/-- Key-expansion loop.  `acc` holds the words produced so far, newest
first; 52 further words extend the initial 8 to the 60 words of the
AES-256 schedule. -/
def expandGo : Nat → Nat → List Word → List Word
  | 0, _, acc => acc.reverse
  | fuel + 1, i, acc =>
    let wprev := acc.headD (0, 0, 0, 0)
    let w8 := acc.getD 7 (0, 0, 0, 0)
    let temp :=
      if i % 8 = 0 then xorWord (subWord (rotWord wprev)) (rconW (i / 8))
      else if i % 8 = 4 then subWord wprev
      else wprev
    expandGo fuel (i + 1) (xorWord w8 temp :: acc)

/-- The 60 words of the AES-256 key schedule. -/
def expandWords (key : List Nat) : List Word :=
  expandGo 52 8
    [keyWord key 7, keyWord key 6, keyWord key 5, keyWord key 4,
     keyWord key 3, keyWord key 2, keyWord key 1, keyWord key 0]

/-- All four components of a schedule word are bytes. -/
def wordBytes (w : Word) : Prop :=
  w.1 < 256 ∧ w.2.1 < 256 ∧ w.2.2.1 < 256 ∧ w.2.2.2 < 256

/-- Flatten four schedule words into one 16-byte round key. -/
def flat4 (w0 w1 w2 w3 : Word) : List Nat :=
  [w0.1, w0.2.1, w0.2.2.1, w0.2.2.2, w1.1, w1.2.1, w1.2.2.1, w1.2.2.2,
   w2.1, w2.2.1, w2.2.2.1, w2.2.2.2, w3.1, w3.2.1, w3.2.2.1, w3.2.2.2]

/-- Group schedule words in fours into round keys. -/
def chunkWords : List Word → List (List Nat)
  | w0 :: w1 :: w2 :: w3 :: rest => flat4 w0 w1 w2 w3 :: chunkWords rest
  | _ => []

/-- The 15 round keys of AES-256. -/
def roundKeys (key : List Nat) : List (List Nat) := chunkWords (expandWords key)

/-- Encryption rounds after the initial AddRoundKey: the last round key
drives the final round (no MixColumns), every earlier one a middle
round. -/
def encRounds : List (List Nat) → List Nat → List Nat
  | [], s => s
  | [kf], s => addRK (shiftRows (subBytes s)) kf
  | k :: k2 :: rest, s => encRounds (k2 :: rest) (addRK (mixColumns (shiftRows (subBytes s))) k)

/-- Decryption rounds, the exact inverse of `encRounds` on the same round
key list. -/
def decRounds : List (List Nat) → List Nat → List Nat
  | [], s => s
  | [kf], s => invSubBytes (invShiftRows (addRK s kf))
  | k :: k2 :: rest, s =>
    invSubBytes (invShiftRows (invMixColumns (addRK (decRounds (k2 :: rest) s) k)))

/-- AES block encryption with an explicit round key list. -/
def encBlockWith (rks : List (List Nat)) (b : List Nat) : List Nat :=
  match rks with
  | [] => b
  | k0 :: rest => encRounds rest (addRK b k0)

/-- AES block decryption with an explicit round key list. -/
def decBlockWith (rks : List (List Nat)) (b : List Nat) : List Nat :=
  match rks with
  | [] => b
  | k0 :: rest => addRK (decRounds rest b) k0

/-- AES-256 block encryption. -/
def aesEncBlock (key b : List Nat) : List Nat := encBlockWith (roundKeys key) b

/-- AES-256 block decryption. -/
def aesDecBlock (key b : List Nat) : List Nat := decBlockWith (roundKeys key) b

/-! ## CBC mode with PKCS#7 padding

`crypto.createCipheriv("aes-256-cbc", key, iv)` followed by
`update`/`final` pads the plaintext with PKCS#7 and chains blocks in CBC
mode; `createDecipheriv` reverses the chain and validates the padding,
throwing on a bad final block length or bad padding. -/

/-- Componentwise byte xor of two equally long byte strings. -/
def zipXor (a b : List Nat) : List Nat := List.zipWith xorB a b

/-- Split a byte string into 16-byte blocks (the last one may be short
when the length is not a multiple of 16). -/
def chunk16 : List Nat → List (List Nat)
  | [] => []
  | b0 :: b1 :: b2 :: b3 :: b4 :: b5 :: b6 :: b7 ::
      b8 :: b9 :: b10 :: b11 :: b12 :: b13 :: b14 :: b15 :: rest =>
    [b0, b1, b2, b3, b4, b5, b6, b7, b8, b9, b10, b11, b12, b13, b14, b15] :: chunk16 rest
  | l => [l]

/-- PKCS#7 padding: always appends between 1 and 16 copies of the pad
length. -/
def pkcs7pad (pt : List Nat) : List Nat :=
  let n := 16 - pt.length % 16
  pt ++ List.replicate n n

/-- PKCS#7 unpadding with full validation, as OpenSSL performs it: the
final byte must be between 1 and 16 and all trailing pad bytes must equal
it. -/
def pkcs7unpad (l : List Nat) : Option (List Nat) :=
  match l.getLast? with
  | none => none
  | some n =>
    if n = 0 ∨ 16 < n ∨ l.length < n then none
    else if (l.drop (l.length - n)).all (· = n) then some (l.take (l.length - n))
    else none

/-- CBC encryption of a block list, chaining from `prev`. -/
def cbcEncBlocks (enc : List Nat → List Nat) (prev : List Nat) :
    List (List Nat) → List (List Nat)
  | [] => []
  | b :: rest =>
    let c := enc (zipXor prev b)
    c :: cbcEncBlocks enc c rest

/-- CBC decryption of a block list, chaining from `prev`. -/
def cbcDecBlocks (dec : List Nat → List Nat) (prev : List Nat) :
    List (List Nat) → List (List Nat)
  | [] => []
  | c :: rest => zipXor prev (dec c) :: cbcDecBlocks dec c rest

/-! ## The encrypt and decrypt helpers of the router

Source (config.d.ts lines 111 to 127):

  const encrypt = (text) =>
    iv = crypto.randomBytes(16);
    cipher = crypto.createCipheriv("aes-256-cbc", aesKey, iv);
    return iv.toString("hex") + ":" + encrypted.toString("hex");

  const decrypt = (text) =>
    textParts = text.split(":");
    iv = Buffer.from(textParts.shift(), "hex");
    encryptedText = Buffer.from(textParts.join(":"), "hex");
    decipher = crypto.createDecipheriv("aes-256-cbc", aesKey, iv);
    return decrypted.toString();

The random IV of `encrypt` is passed as an explicit parameter.  Plaintext
input and output are byte strings (the code applies UTF-8 encoding and
decoding at the string boundary). -/

/-- Error cases of the Node crypto layer; each corresponds to a thrown
exception, the code does not distinguish them. -/
inductive CryptoErr
  | badKeyLength
  | badIvLength
  | badBlockLength
  | badPadding
  deriving DecidableEq, Repr

/-- JavaScript `text.split(":")` on a character list. -/
def splitOnColon : List Char → List (List Char)
  | [] => [[]]
  | c :: rest =>
    let r := splitOnColon rest
    if c = ':' then [] :: r
    else
      match r with
      | [] => [[c]]
      | p :: ps => (c :: p) :: ps

/-- JavaScript `parts.join(":")`. -/
def joinColon : List (List Char) → List Char
  | [] => []
  | [p] => p
  | p :: ps => p ++ ':' :: joinColon ps

/-- Raw token construction of `encrypt` (hex of the IV, a colon, hex of
the CBC ciphertext). -/
def encryptRaw (key iv pt : List Nat) : List Char :=
  hexChars iv ++ ':' :: hexChars ((cbcEncBlocks (aesEncBlock key) iv (chunk16 (pkcs7pad pt))).flatten)

/-- The `encrypt` helper.  `createCipheriv` validates the key and IV
lengths; the token is `hex(iv) ++ ":" ++ hex(ciphertext)`. -/
def encrypt (key iv pt : List Nat) : Except CryptoErr String :=
  if key.length ≠ 32 then .error .badKeyLength
  else if iv.length ≠ 16 then .error .badIvLength
  else .ok (String.mk (encryptRaw key iv pt))

/-- The `decrypt` helper.  `textParts.shift()` takes the first colon
segment as the IV hex; `textParts.join(":")` restores the remainder as
the ciphertext hex; both decode with the lenient Node hex decoder.
`createDecipheriv` throws on a bad key or IV length, `final` throws on a
misaligned ciphertext or bad padding. -/
def decrypt (key : List Nat) (text : String) : Except CryptoErr (List Nat) :=
  match splitOnColon text.data with
  | [] => .error .badIvLength
  | ivPart :: rest =>
    let iv := hexDecode ivPart
    let ct := hexDecode (joinColon rest)
    if key.length ≠ 32 then .error .badKeyLength
    else if iv.length ≠ 16 then .error .badIvLength
    else if ct.length = 0 ∨ ct.length % 16 ≠ 0 then .error .badBlockLength
    else
      match pkcs7unpad (cbcDecBlocks (aesDecBlock key) iv (chunk16 ct)).flatten with
      | none => .error .badPadding
      | some pt => .ok pt

/-! ## UTF-8 and the credential JSON -/

/-- UTF-8 encoding of one code point, expressed with division and
remainder. -/
def utf8EncodeChar (c : Nat) : List Nat :=
  if c < 128 then [c]
  else if c < 2048 then [192 + c / 64, 128 + c % 64]
  else if c < 65536 then [224 + c / 4096, 128 + c / 64 % 64, 128 + c % 64]
  else [240 + c / 262144 % 16, 128 + c / 4096 % 64, 128 + c / 64 % 64, 128 + c % 64]

/-- UTF-8 bytes of a string. -/
def utf8Bytes (s : String) : List Nat := s.data.flatMap (fun c => utf8EncodeChar c.toNat)

/-- The serialized credential pair
`JSON.stringify(\x7b email, password \x7d)` encrypted at login.  Both
fields come from the request body; JSON string escaping is not modelled
(the claims never inspect this payload). -/
def credsJson (email password : String) : String :=
  "\x7b\"email\":\"" ++ email ++ "\",\"password\":\"" ++ password ++ "\"\x7d"

/-! ## The record store

One Redis hash per email with the string fields `password` (credential
ciphertext token), `calendarId` (scalar, written only by
/update-calendar-id) and `calendarIds` (JSON array of `\x7b id, name \x7d`
entries).  The JSON round trip for the calendar list is the identity, so
the field is modelled as the parsed list; a missing key and a missing
field both read as `none` (Redis returns nil for both). -/

/-- One calendar registry entry. -/
structure Cal where
  id : String
  name : String
  deriving DecidableEq, Repr

/-- One EWS folder as seen by the enumeration (before the class filter). -/
structure Folder where
  id : String
  name : String
  folderClass : String
  deriving DecidableEq, Repr

/-- The hash fields stored for one email. -/
structure UserRecord where
  password : Option String
  calendarId : Option String
  calendarIds : Option (List Cal)
  deriving DecidableEq, Repr

/-- The record with no fields. -/
def emptyRecord : UserRecord := ⟨none, none, none⟩

/-- The whole store: a total map from email to the stored fields. -/
def RedisState := String → UserRecord

/-- The store with no records. -/
def emptyState : RedisState := fun _ => emptyRecord

/-- `hset(email, \x7b password, calendarIds \x7d)` as performed by
/login. -/
def setPasswordAndCals (st : RedisState) (email tok : String) (cals : List Cal) : RedisState :=
  fun e => if e = email then { st e with password := some tok, calendarIds := some cals } else st e

/-- `hset(email, "calendarIds", …)` as performed by /add-calendar and
/delete-calendar. -/
def setCalendarIds (st : RedisState) (email : String) (cals : List Cal) : RedisState :=
  fun e => if e = email then { st e with calendarIds := some cals } else st e

/-- `hset(email, "calendarId", …)` as performed by /update-calendar-id. -/
def setCalendarIdField (st : RedisState) (email cid : String) : RedisState :=
  fun e => if e = email then { st e with calendarId := some cid } else st e

/-- The calendar sequence of a record as every reader obtains it:
`calendarIdsString ? JSON.parse(calendarIdsString) : []`. -/
def calsOf (st : RedisState) (email : String) : List Cal :=
  (st email).calendarIds.getD []

/-! ## Responses -/

/-- The JSON bodies the modelled handlers produce. -/
inductive Body
  | errMsg (error : String)
  | errWithDetails (error details : String)
  | loginOk (email : String) (calendars : List Cal)
  | checkLoginFalse
  | checkLoginTrue (email : String) (hasCalendarId : Bool) (calendars : List Cal)
  | opOk (message : String)
  | opFail (error : String)
  deriving DecidableEq, Repr

/-- An HTTP response: status code and JSON body. -/
structure Response where
  status : Nat
  body : Body
  deriving DecidableEq, Repr

/-! ## The authentication gate

Source (config.d.ts lines 135 to 149).  JavaScript truthiness: a missing
session claim and an empty string are both falsy, as is a nil or empty
stored field.  The code has no try/catch, so a `decrypt` throw escapes the
middleware as an unhandled rejection that express-promise-router forwards
to the framework error handler; this outcome is `exception` below.  The
`JSON.parse` of the decrypted plaintext and the attach to the request
context lie beyond the modelled gate and are summarised by `proceed`. -/

/-- Outcome of the authentication gate for one request. -/
inductive AuthOutcome
  | reject (r : Response)
  | exception
  | proceed (plaintext : List Nat)
  deriving DecidableEq, Repr

/-- The `authMiddleware` of the router. -/
def authMiddleware (key : List Nat) (session : Option String) (st : RedisState) : AuthOutcome :=
  match session with
  | none => .reject ⟨401, .errMsg "Not logged in"⟩
  | some userEmail =>
    if userEmail.isEmpty then .reject ⟨401, .errMsg "Not logged in"⟩
    else
      match (st userEmail).password with
      | none => .reject ⟨401, .errMsg "Invalid session"⟩
      | some enc =>
        if enc.isEmpty then .reject ⟨401, .errMsg "Invalid session"⟩
        else
          match decrypt key enc with
          | .error _ => .exception
          | .ok pt => .proceed pt

/-! ## Handlers -/

/-- GET /check-login (config.d.ts lines 185 to 205).  `hasCalendarId` is
`!!calendarIds` in the source, and `calendarIds` is always an array after
the `… ? JSON.parse(…) : []` default, so the flag is constantly true on
the logged-in path. -/
def checkLogin (session : Option String) (st : RedisState) : Response :=
  match session with
  | none => ⟨200, .checkLoginFalse⟩
  | some userEmail =>
    if userEmail.isEmpty then ⟨200, .checkLoginFalse⟩
    else
      match (st userEmail).password with
      | none => ⟨200, .checkLoginFalse⟩
      | some enc =>
        if enc.isEmpty then ⟨200, .checkLoginFalse⟩
        else ⟨200, .checkLoginTrue userEmail true (calsOf st userEmail)⟩

/-- The `listCalendars` helper (config.d.ts lines 156 to 182): filter the
found folders to the calendar item class, map to `\x7b id, name \x7d`;
any enumeration error is caught and yields the empty list. -/
def listCalendars (folders : Except Unit (List Folder)) : List Cal :=
  match folders with
  | .error _ => []
  | .ok fs => (fs.filter (fun f => f.folderClass = "IPF.Appointment")).map
      (fun f => ⟨f.id, f.name⟩)

/-- POST /login (config.d.ts lines 207 to 238).  `bindRes` is the outcome
of the `Folder.Bind(service, Inbox)` credential probe (error value = the
thrown message); `folders` is the outcome of the EWS folder enumeration
inside `listCalendars`; `iv` is the random IV drawn by `encrypt`.  On any
throw before the store write the catch block answers 401 with the error
message and the store and session are untouched.  The crypto layer throws
only on a malformed server key; its message is abstracted as
"Unknown error". -/
def login (key iv : List Nat) (email password : String) (bindRes : Except String Unit)
    (folders : Except Unit (List Folder)) (st : RedisState) (session : Option String) :
    Response × RedisState × Option String :=
  match bindRes with
  | .error m => (⟨401, .errWithDetails "Invalid credentials" m⟩, st, session)
  | .ok _ =>
    match encrypt key iv (utf8Bytes (credsJson email password)) with
    | .error _ => (⟨401, .errWithDetails "Invalid credentials" "Unknown error"⟩, st, session)
    | .ok tok =>
      let cals := listCalendars folders
      (⟨200, .loginOk email cals⟩, setPasswordAndCals st email tok cals, some email)

/-- POST /add-calendar (config.d.ts lines 373 to 392), after the gate has
passed (so the session email is present).  `!calendarId || !calendarName`
rejects a missing or empty field with 400; otherwise the handler reads the
list, appends, and writes it back. -/
def addCalendar (userEmail : String) (calendarId calendarName : Option String)
    (st : RedisState) : Response × RedisState :=
  match calendarId, calendarName with
  | some cid, some cname =>
    if cid.isEmpty ∨ cname.isEmpty then (⟨400, .opFail "Calendar ID and name are required"⟩, st)
    else
      (⟨200, .opOk "Calendar added successfully"⟩,
       setCalendarIds st userEmail (calsOf st userEmail ++ [⟨cid, cname⟩]))
  | _, _ => (⟨400, .opFail "Calendar ID and name are required"⟩, st)

/-- POST /delete-calendar (config.d.ts lines 395 to 418), after the gate
has passed.  The handler reads the list, filters out entries whose id
equals the requested one, and writes the result back (also when nothing
was removed). -/
def deleteCalendar (userEmail : String) (calendarId : Option String)
    (st : RedisState) : Response × RedisState :=
  match calendarId with
  | some cid =>
    if cid.isEmpty then (⟨400, .opFail "Calendar ID is required"⟩, st)
    else
      (⟨200, .opOk "Calendar deleted successfully"⟩,
       setCalendarIds st userEmail ((calsOf st userEmail).filter (fun c => c.id ≠ cid)))
  | none => (⟨400, .opFail "Calendar ID is required"⟩, st)

/-- POST /update-calendar-id (config.d.ts lines 340 to 369), after the
gate has passed.  The handler validates the body field (400), re-checks
the session claim (401), writes the scalar `calendarId` hash field, and
reads it back for verification; a mismatch would answer 500 with the
write already performed. -/
def updateCalendarId (session : Option String) (calendarId : Option String)
    (st : RedisState) : Response × RedisState :=
  match calendarId with
  | none => (⟨400, .opFail "Calendar ID is required"⟩, st)
  | some cid =>
    if cid.isEmpty then (⟨400, .opFail "Calendar ID is required"⟩, st)
    else
      match session with
      | none => (⟨401, .opFail "User not logged in"⟩, st)
      | some userEmail =>
        if userEmail.isEmpty then (⟨401, .opFail "User not logged in"⟩, st)
        else
          let st2 := setCalendarIdField st userEmail cid
          if (st2 userEmail).calendarId = some cid then
            (⟨200, .opOk "Calendar ID updated successfully"⟩, st2)
          else (⟨500, .opFail "Failed to update calendar ID"⟩, st2)

/-! ## Concrete inputs used by counterexamples and witnesses -/

instance {ε α : Type} [DecidableEq ε] [DecidableEq α] : DecidableEq (Except ε α) :=
  fun x y =>
    match x, y with
    | .ok a, .ok b => decidable_of_iff (a = b) (by simp)
    | .error a, .error b => decidable_of_iff (a = b) (by simp)
    | .ok _, .error _ => isFalse (by simp)
    | .error _, .ok _ => isFalse (by simp)

/-- A 32-byte AES key (bytes 0 to 31). -/
def key0 : List Nat := List.range 32

/-- A second 32-byte AES key, equal to `key0` except in its last two
bytes. -/
def key1 : List Nat := List.range 30 ++ [170, 4]

/-- A 16-byte IV (bytes 0 to 15). -/
def iv0 : List Nat := List.range 16

/-- A 15-byte plaintext. -/
def pt0 : List Nat := utf8Bytes "attack at dawn!"

/-- The token `encrypt` produces from `key0`, `iv0`, `pt0`. -/
def tok0 : String := "000102030405060708090a0b0c0d0e0f:f0d7706d997c9a7e09d89651dfc906cc"

/-- The bytes `decrypt` returns for `tok0` under the wrong key `key1`:
the CBC decryption happens to end in a valid PKCS#7 pad byte. -/
def garbage0 : List Nat := [54, 16, 178, 199, 195, 63, 77, 133, 184, 64, 150, 41, 70, 188, 11]

/-- A store holding one record whose password field is not decryptable
(too short to contain a 16-byte IV). -/
def stInvalidCred : RedisState :=
  fun e => if e = "a@x.com" then ⟨some "xx", none, none⟩ else emptyRecord

/-- A store holding one record with one registered calendar. -/
def stOneCal : RedisState :=
  fun e => if e = "a@x.com" then ⟨some "tok", none, some [⟨"F1", "Calendar"⟩]⟩ else emptyRecord

end EwsVault

namespace EwsVault

/-! # Theorems -/

/-! ## Model validation against published AES test vectors -/

/-- FIPS-197 appendix C.3 AES-256 test vector, encryption direction: the
block model matches the standard. -/
theorem aes_fips197_enc :
    aesEncBlock
      [0, 1, 2, 3, 4, 5, 6, 7, 8, 9, 10, 11, 12, 13, 14, 15, 16, 17, 18, 19, 20, 21,
        22, 23, 24, 25, 26, 27, 28, 29, 30, 31]
      [0, 17, 34, 51, 68, 85, 102, 119, 136, 153, 170, 187, 204, 221, 238, 255] =
    [142, 162, 183, 202, 81, 103, 69, 191, 234, 252, 73, 144, 75, 73, 96, 137] := by
  decide

/-- FIPS-197 appendix C.3 AES-256 test vector, decryption direction. -/
theorem aes_fips197_dec :
    aesDecBlock
      [0, 1, 2, 3, 4, 5, 6, 7, 8, 9, 10, 11, 12, 13, 14, 15, 16, 17, 18, 19, 20, 21,
        22, 23, 24, 25, 26, 27, 28, 29, 30, 31]
      [142, 162, 183, 202, 81, 103, 69, 191, 234, 252, 73, 144, 75, 73, 96, 137] =
    [0, 17, 34, 51, 68, 85, 102, 119, 136, 153, 170, 187, 204, 221, 238, 255] := by
  decide

/-- The full cipher model reproduces the token of the source helper on a
concrete input (cross-checked against the Node crypto library
behaviour). -/
theorem encrypt_concrete_token : encrypt key0 iv0 pt0 = .ok tok0 := by decide

/-! ## Byte xor algebra -/

/-- The byte xor stays in the byte range. -/
theorem xorB_lt (a b : Nat) : xorB a b < 256 := Nat.mod_lt _ (by norm_num)

/-- Reduction mod 256 distributes over xor. -/
theorem xor_mod256 (x y : Nat) : (x ^^^ y) % 256 = (x % 256) ^^^ (y % 256) := by
  have h : (256 : Nat) = 2 ^ 8 := by norm_num
  rw [h, ← Nat.and_pow_two_sub_one_eq_mod (x ^^^ y) 8,
      ← Nat.and_pow_two_sub_one_eq_mod x 8, ← Nat.and_pow_two_sub_one_eq_mod y 8,
      Nat.and_xor_distrib_right]

/-- Xor of two bytes is a byte. -/
theorem xor_lt256 {x y : Nat} (hx : x < 256) (hy : y < 256) : x ^^^ y < 256 := by
  have h : (256 : Nat) = 2 ^ 8 := by norm_num
  rw [h] at hx hy ⊢
  exact Nat.xor_lt_two_pow hx hy

/-- On genuine bytes, `xorB` is plain xor. -/
theorem xorB_eq {a b : Nat} (ha : a < 256) (hb : b < 256) : xorB a b = a ^^^ b := by
  unfold xorB
  exact Nat.mod_eq_of_lt (xor_lt256 ha hb)

/-- Reducing the left argument of `xorB` mod 256 changes nothing. -/
theorem xorB_mod_left (a b : Nat) : xorB (a % 256) b = xorB a b := by
  unfold xorB
  rw [xor_mod256 (a % 256) b, xor_mod256 a b, Nat.mod_mod]

/-- Reducing the right argument of `xorB` mod 256 changes nothing. -/
theorem xorB_mod_right (a b : Nat) : xorB a (b % 256) = xorB a b := by
  unfold xorB
  rw [xor_mod256 a (b % 256), xor_mod256 a b, Nat.mod_mod]

/-- `xorB` is commutative. -/
theorem xorB_comm (a b : Nat) : xorB a b = xorB b a := by
  unfold xorB
  rw [Nat.xor_comm]

/-- `xorB` is associative. -/
theorem xorB_assoc (a b c : Nat) : xorB (xorB a b) c = xorB a (xorB b c) := by
  show xorB ((a ^^^ b) % 256) c = xorB a ((b ^^^ c) % 256)
  rw [xorB_mod_left, xorB_mod_right]
  unfold xorB
  rw [Nat.xor_assoc]

/-- Left-commutativity, for AC-normalisation by simp. -/
theorem xorB_left_comm (a b c : Nat) : xorB a (xorB b c) = xorB b (xorB a c) := by
  rw [← xorB_assoc, xorB_comm a b, xorB_assoc]

/-- Right zero. -/
theorem xorB_zero {a : Nat} (ha : a < 256) : xorB a 0 = a := by
  unfold xorB
  simpa using Nat.mod_eq_of_lt ha

/-- Left zero. -/
theorem zero_xorB {a : Nat} (ha : a < 256) : xorB 0 a = a := by
  rw [xorB_comm]
  exact xorB_zero ha

/-- Xor with the same byte twice cancels. -/
theorem xorB_cancel {a : Nat} (b : Nat) (ha : a < 256) : xorB (xorB a b) b = a := by
  rw [← xorB_mod_right a b, ← xorB_mod_right (xorB a (b % 256)) b]
  have hb : b % 256 < 256 := Nat.mod_lt _ (by norm_num)
  rw [xorB_eq ha hb, xorB_eq (xor_lt256 ha hb) hb, Nat.xor_assoc, Nat.xor_self, Nat.xor_zero]

/-! ## GF(256) linearity of the MixColumns multipliers -/

/-- The xtime operation is additive over byte xor. -/
theorem xtime_additive {a b : Nat} (ha : a < 256) (hb : b < 256) :
    xtime (xorB a b) = xorB (xtime a) (xtime b) := by
  have hxab : a ^^^ b < 256 := xor_lt256 ha hb
  have hmodA : a % 256 = a := Nat.mod_eq_of_lt ha
  have hmodB : b % 256 = b := Nat.mod_eq_of_lt hb
  have hmodAB : (a ^^^ b) % 256 = a ^^^ b := Nat.mod_eq_of_lt hxab
  have le128 : ∀ x : Nat, x < 256 → (128 ≤ x ↔ Nat.testBit x 7 = true) := by
    intro x hx
    rw [Nat.testBit_to_div_mod]
    have h : (2 : Nat) ^ 7 = 128 := by norm_num
    rw [h]
    simp only [decide_eq_true_eq]
    omega
  have h7 : Nat.testBit (a ^^^ b) 7 = ((Nat.testBit a 7).xor (Nat.testBit b 7)) := by
    rw [Nat.testBit_xor]
  have two_mul_xor : ∀ x y : Nat, 2 * (x ^^^ y) = 2 * x ^^^ 2 * y := by
    intro x y
    apply Nat.eq_of_testBit_eq
    intro i
    have e : ∀ z : Nat, 2 * z = z <<< 1 := by
      intro z
      rw [Nat.shiftLeft_eq]
      ring
    simp only [e, Nat.testBit_shiftLeft, Nat.testBit_xor, Bool.and_xor_distrib_left]
  have hdist : (a ^^^ b) * 2 % 256 = (a * 2 % 256) ^^^ (b * 2 % 256) := by
    rw [Nat.mul_comm (a ^^^ b) 2, two_mul_xor, xor_mod256, Nat.mul_comm 2 a, Nat.mul_comm 2 b]
  have hta : a * 2 % 256 < 256 := Nat.mod_lt _ (by norm_num)
  have htb : b * 2 % 256 < 256 := Nat.mod_lt _ (by norm_num)
  unfold xtime xorB
  simp only [hmodA, hmodB, hmodAB]
  by_cases hA : 128 ≤ a <;> by_cases hB : 128 ≤ b
  · have hAB : ¬ 128 ≤ (a ^^^ b) := by
      rw [le128 _ hxab, h7, (le128 _ ha).mp hA, (le128 _ hb).mp hB]
      simp
    simp only [if_pos hA, if_pos hB, if_neg hAB, hdist]
    have h1 : ((a * 2 % 256) ^^^ 27) ^^^ ((b * 2 % 256) ^^^ 27)
        = (a * 2 % 256) ^^^ (b * 2 % 256) := by
      rw [Nat.xor_assoc, Nat.xor_comm 27 ((b * 2 % 256) ^^^ 27), Nat.xor_assoc,
          Nat.xor_self, Nat.xor_zero]
    rw [h1, Nat.mod_eq_of_lt (xor_lt256 hta htb)]
  · have hAB : 128 ≤ (a ^^^ b) := by
      rw [le128 _ hxab, h7, (le128 _ ha).mp hA]
      by_contra hc
      rw [le128 _ hb] at hB
      simp only [Bool.not_eq_true] at hB hc
      rw [hB] at hc
      simp at hc
    simp only [if_pos hA, if_neg hB, if_pos hAB, hdist]
    have h1 : ((a * 2 % 256) ^^^ 27) ^^^ (b * 2 % 256)
        = ((a * 2 % 256) ^^^ (b * 2 % 256)) ^^^ 27 := by
      rw [Nat.xor_assoc, Nat.xor_comm 27 (b * 2 % 256), Nat.xor_assoc]
    rw [h1, Nat.mod_eq_of_lt (xor_lt256 (xor_lt256 hta htb) (by norm_num))]
  · have hAB : 128 ≤ (a ^^^ b) := by
      rw [le128 _ hxab, h7, (le128 _ hb).mp hB]
      by_contra hc
      rw [le128 _ ha] at hA
      simp only [Bool.not_eq_true] at hA hc
      rw [hA] at hc
      simp at hc
    simp only [if_neg hA, if_pos hB, if_pos hAB, hdist]
    have h1 : (a * 2 % 256) ^^^ ((b * 2 % 256) ^^^ 27)
        = ((a * 2 % 256) ^^^ (b * 2 % 256)) ^^^ 27 := by
      rw [Nat.xor_assoc]
    rw [h1, Nat.mod_eq_of_lt (xor_lt256 (xor_lt256 hta htb) (by norm_num))]
  · have hAB : ¬ 128 ≤ (a ^^^ b) := by
      rw [le128 _ hxab, h7]
      rw [le128 _ ha] at hA
      rw [le128 _ hb] at hB
      simp only [Bool.not_eq_true] at hA hB
      rw [hA, hB]
      simp
    simp only [if_neg hA, if_neg hB, if_neg hAB, hdist]
    rw [Nat.mod_eq_of_lt (xor_lt256 hta htb)]

/-- The xtime output is a byte. -/
theorem xtime_lt (a : Nat) : xtime a < 256 := by
  unfold xtime
  by_cases h : 128 ≤ a % 256
  · simp only [if_pos h]
    exact xor_lt256 (Nat.mod_lt _ (by norm_num)) (by norm_num)
  · simp only [if_neg h]
    exact Nat.mod_lt _ (by norm_num)

/-- Multiplication by 2 is additive. -/
theorem mulTwo_additive {a b : Nat} (ha : a < 256) (hb : b < 256) :
    mulTwo (xorB a b) = xorB (mulTwo a) (mulTwo b) := xtime_additive ha hb

/-- Multiplication by 3 is additive. -/
theorem mulThree_additive {a b : Nat} (ha : a < 256) (hb : b < 256) :
    mulThree (xorB a b) = xorB (mulThree a) (mulThree b) := by
  unfold mulThree
  rw [xtime_additive ha hb]
  simp only [xorB_comm, xorB_left_comm, xorB_assoc]

/-- Multiplication by 9 is additive. -/
theorem mulNine_additive {a b : Nat} (ha : a < 256) (hb : b < 256) :
    mulNine (xorB a b) = xorB (mulNine a) (mulNine b) := by
  unfold mulNine
  rw [xtime_additive ha hb, xtime_additive (xtime_lt a) (xtime_lt b),
      xtime_additive (xtime_lt (xtime a)) (xtime_lt (xtime b))]
  simp only [xorB_comm, xorB_left_comm, xorB_assoc]

/-- Multiplication by 11 is additive. -/
theorem mulEleven_additive {a b : Nat} (ha : a < 256) (hb : b < 256) :
    mulEleven (xorB a b) = xorB (mulEleven a) (mulEleven b) := by
  unfold mulEleven
  rw [xtime_additive ha hb, xtime_additive (xtime_lt a) (xtime_lt b),
      xtime_additive (xtime_lt (xtime a)) (xtime_lt (xtime b))]
  simp only [xorB_comm, xorB_left_comm, xorB_assoc]

/-- Multiplication by 13 is additive. -/
theorem mulThirteen_additive {a b : Nat} (ha : a < 256) (hb : b < 256) :
    mulThirteen (xorB a b) = xorB (mulThirteen a) (mulThirteen b) := by
  unfold mulThirteen
  rw [xtime_additive ha hb, xtime_additive (xtime_lt a) (xtime_lt b),
      xtime_additive (xtime_lt (xtime a)) (xtime_lt (xtime b))]
  simp only [xorB_comm, xorB_left_comm, xorB_assoc]

/-- Multiplication by 14 is additive. -/
theorem mulFourteen_additive {a b : Nat} (ha : a < 256) (hb : b < 256) :
    mulFourteen (xorB a b) = xorB (mulFourteen a) (mulFourteen b) := by
  unfold mulFourteen
  rw [xtime_additive ha hb, xtime_additive (xtime_lt a) (xtime_lt b),
      xtime_additive (xtime_lt (xtime a)) (xtime_lt (xtime b))]
  simp only [xorB_comm, xorB_left_comm, xorB_assoc]

/-! ## Inverses of the four AES round operations -/

/-- A length-16 list of naturals is a 16-tuple. -/
theorem list_len16 {s : List Nat} (h : s.length = 16) :
    ∃ b0 b1 b2 b3 b4 b5 b6 b7 b8 b9 b10 b11 b12 b13 b14 b15,
      s = [b0, b1, b2, b3, b4, b5, b6, b7, b8, b9, b10, b11, b12, b13, b14, b15] :=
  match s, h with
  | [b0, b1, b2, b3, b4, b5, b6, b7, b8, b9, b10, b11, b12, b13, b14, b15], _ =>
    ⟨b0, b1, b2, b3, b4, b5, b6, b7, b8, b9, b10, b11, b12, b13, b14, b15, rfl⟩

/-- The forward S-box lookup produces bytes. -/
theorem subB_lt (a : Nat) : subB a < 256 := by
  have h : ∀ i, i < 256 → sbox.getD i 0 < 256 := by decide
  exact h (a % 256) (Nat.mod_lt _ (by norm_num))

/-- The inverse S-box undoes the forward S-box on bytes. -/
theorem invSubB_subB {a : Nat} (ha : a < 256) : invSubB (subB a) = a := by
  have h : ∀ i, i < 256 → invSubB (subB i) = i := by decide
  exact h a ha

/-- InvSubBytes undoes SubBytes on byte lists. -/
theorem invSubBytes_subBytes {s : List Nat} (hs : Bytes s) :
    invSubBytes (subBytes s) = s := by
  induction s with
  | nil => rfl
  | cons a t ih =>
    have ha : a < 256 := hs a (List.mem_cons_self a t)
    have ht : Bytes t := fun x hx => hs x (List.mem_cons_of_mem a hx)
    show invSubB (subB a) :: invSubBytes (subBytes t) = a :: t
    rw [invSubB_subB ha, ih ht]

/-- SubBytes preserves length. -/
theorem subBytes_length (s : List Nat) : (subBytes s).length = s.length :=
  List.length_map s subB

/-- SubBytes produces bytes. -/
theorem subBytes_bytes (s : List Nat) : Bytes (subBytes s) := by
  intro x hx
  rcases List.mem_map.mp hx with ⟨a, _, rfl⟩
  exact subB_lt a

/-- InvShiftRows undoes ShiftRows on 16-byte states. -/
theorem invShiftRows_shiftRows {s : List Nat} (h : s.length = 16) :
    invShiftRows (shiftRows s) = s := by
  obtain ⟨b0, b1, b2, b3, b4, b5, b6, b7, b8, b9, b10, b11, b12, b13, b14, b15, rfl⟩ :=
    list_len16 h
  rfl

/-- ShiftRows preserves length on 16-byte states. -/
theorem shiftRows_length {s : List Nat} (h : s.length = 16) : (shiftRows s).length = 16 := by
  obtain ⟨b0, b1, b2, b3, b4, b5, b6, b7, b8, b9, b10, b11, b12, b13, b14, b15, rfl⟩ :=
    list_len16 h
  rfl

/-- ShiftRows permutes the state, so it preserves the byte property. -/
theorem shiftRows_bytes {s : List Nat} (h : s.length = 16) (hs : Bytes s) :
    Bytes (shiftRows s) := by
  obtain ⟨b0, b1, b2, b3, b4, b5, b6, b7, b8, b9, b10, b11, b12, b13, b14, b15, rfl⟩ :=
    list_len16 h
  intro x hx
  simp only [shiftRows, List.mem_cons, List.not_mem_nil, or_false] at hx
  rcases hx with rfl | rfl | rfl | rfl | rfl | rfl | rfl | rfl | rfl | rfl | rfl | rfl |
      rfl | rfl | rfl | rfl <;>
    (apply hs; simp)

/-- A length-4 list of naturals is a 4-tuple. -/
theorem list_len4 {s : List Nat} (h : s.length = 4) :
    ∃ a b c d, s = [a, b, c, d] :=
  match s, h with
  | [a, b, c, d], _ => ⟨a, b, c, d, rfl⟩

/-- One MixColumns column consists of bytes, whatever the input. -/
theorem mixCol_bytes (a b c d : Nat) : Bytes (mixCol a b c d) := by
  intro x hx
  simp only [mixCol, List.mem_cons, List.not_mem_nil, or_false] at hx
  rcases hx with rfl | rfl | rfl | rfl <;> exact xorB_lt _ _

/-- One InvMixColumns column consists of bytes, whatever the input. -/
theorem invMixCol_bytes (a b c d : Nat) : Bytes (invMixCol a b c d) := by
  intro x hx
  simp only [invMixCol, List.mem_cons, List.not_mem_nil, or_false] at hx
  rcases hx with rfl | rfl | rfl | rfl <;> exact xorB_lt _ _

/-- The MixColumns column map is additive over componentwise xor. -/
theorem mixColL_additive (a b c d e f g h : Nat) (ha : a < 256) (hb : b < 256)
    (hc : c < 256) (hd : d < 256) (he : e < 256) (hf : f < 256) (hg : g < 256)
    (hh : h < 256) :
    mixColL (zipXor [a, b, c, d] [e, f, g, h]) =
      zipXor (mixColL [a, b, c, d]) (mixColL [e, f, g, h]) := by
  show mixCol (xorB a e) (xorB b f) (xorB c g) (xorB d h) =
    zipXor (mixCol a b c d) (mixCol e f g h)
  simp only [mixCol, zipXor, List.zipWith, List.cons.injEq, and_true]
  refine ⟨?_, ?_, ?_, ?_⟩
  · rw [mulTwo_additive ha he, mulThree_additive hb hf]
    simp only [xorB_comm, xorB_left_comm, xorB_assoc]
  · rw [mulTwo_additive hb hf, mulThree_additive hc hg]
    simp only [xorB_comm, xorB_left_comm, xorB_assoc]
  · rw [mulTwo_additive hc hg, mulThree_additive hd hh]
    simp only [xorB_comm, xorB_left_comm, xorB_assoc]
  · rw [mulThree_additive ha he, mulTwo_additive hd hh]
    simp only [xorB_comm, xorB_left_comm, xorB_assoc]

/-- The InvMixColumns column map is additive over componentwise xor. -/
theorem invMixColL_additive (a b c d e f g h : Nat) (ha : a < 256) (hb : b < 256)
    (hc : c < 256) (hd : d < 256) (he : e < 256) (hf : f < 256) (hg : g < 256)
    (hh : h < 256) :
    invMixColL (zipXor [a, b, c, d] [e, f, g, h]) =
      zipXor (invMixColL [a, b, c, d]) (invMixColL [e, f, g, h]) := by
  show invMixCol (xorB a e) (xorB b f) (xorB c g) (xorB d h) =
    zipXor (invMixCol a b c d) (invMixCol e f g h)
  simp only [invMixCol, zipXor, List.zipWith, List.cons.injEq, and_true]
  refine ⟨?_, ?_, ?_, ?_⟩
  · rw [mulFourteen_additive ha he, mulEleven_additive hb hf, mulThirteen_additive hc hg,
        mulNine_additive hd hh]
    simp only [xorB_comm, xorB_left_comm, xorB_assoc]
  · rw [mulNine_additive ha he, mulFourteen_additive hb hf, mulEleven_additive hc hg,
        mulThirteen_additive hd hh]
    simp only [xorB_comm, xorB_left_comm, xorB_assoc]
  · rw [mulThirteen_additive ha he, mulNine_additive hb hf, mulFourteen_additive hc hg,
        mulEleven_additive hd hh]
    simp only [xorB_comm, xorB_left_comm, xorB_assoc]
  · rw [mulEleven_additive ha he, mulThirteen_additive hb hf, mulNine_additive hc hg,
        mulFourteen_additive hd hh]
    simp only [xorB_comm, xorB_left_comm, xorB_assoc]

/-- Inverse on the first basis column. -/
theorem colInv_basis0 : ∀ a, a < 256 → invMixColL (mixColL [a, 0, 0, 0]) = [a, 0, 0, 0] := by
  decide

/-- Inverse on the second basis column. -/
theorem colInv_basis1 : ∀ a, a < 256 → invMixColL (mixColL [0, a, 0, 0]) = [0, a, 0, 0] := by
  decide

/-- Inverse on the third basis column. -/
theorem colInv_basis2 : ∀ a, a < 256 → invMixColL (mixColL [0, 0, a, 0]) = [0, 0, a, 0] := by
  decide

/-- Inverse on the fourth basis column. -/
theorem colInv_basis3 : ∀ a, a < 256 → invMixColL (mixColL [0, 0, 0, a]) = [0, 0, 0, a] := by
  decide

/-- The InvMixColumns column map is additive, general-list form. -/
theorem invMixColL_additive2 (v w : List Nat) (hv : v.length = 4) (hw : w.length = 4)
    (hvB : Bytes v) (hwB : Bytes w) :
    invMixColL (zipXor v w) = zipXor (invMixColL v) (invMixColL w) := by
  obtain ⟨a, b, c, d, rfl⟩ := list_len4 hv
  obtain ⟨e, f, g, h, rfl⟩ := list_len4 hw
  exact invMixColL_additive a b c d e f g h (hvB a (by simp)) (hvB b (by simp))
    (hvB c (by simp)) (hvB d (by simp)) (hwB e (by simp)) (hwB f (by simp))
    (hwB g (by simp)) (hwB h (by simp))

/-- The InvMixColumns column map inverts the MixColumns column map on
byte columns. -/
theorem invMixColL_mixColL (v : List Nat) (hlen : v.length = 4) (hv : Bytes v) :
    invMixColL (mixColL v) = v := by
  obtain ⟨a, b, c, d, rfl⟩ := list_len4 hlen
  have ha : a < 256 := hv a (by simp)
  have hb : b < 256 := hv b (by simp)
  have hc : c < 256 := hv c (by simp)
  have hd : d < 256 := hv d (by simp)
  have z : (0 : Nat) < 256 := by norm_num
  have hcd : zipXor [0, 0, c, 0] [0, 0, 0, d] = [0, 0, c, d] := by
    show [xorB 0 0, xorB 0 0, xorB c 0, xorB 0 d] = [0, 0, c, d]
    rw [xorB_zero hc, zero_xorB hd]
    rfl
  have hbcd : zipXor [0, b, 0, 0] [0, 0, c, d] = [0, b, c, d] := by
    show [xorB 0 0, xorB b 0, xorB 0 c, xorB 0 d] = [0, b, c, d]
    rw [xorB_zero hb, zero_xorB hc, zero_xorB hd]
    rfl
  have habcd : zipXor [a, 0, 0, 0] [0, b, c, d] = [a, b, c, d] := by
    show [xorB a 0, xorB 0 b, xorB 0 c, xorB 0 d] = [a, b, c, d]
    rw [xorB_zero ha, zero_xorB hb, zero_xorB hc, zero_xorB hd]
  have hCD : invMixColL (mixColL [0, 0, c, d]) = [0, 0, c, d] := by
    rw [← hcd, mixColL_additive 0 0 c 0 0 0 0 d z z hc z z z z hd,
        invMixColL_additive2 (mixColL [0, 0, c, 0]) (mixColL [0, 0, 0, d]) rfl rfl
          (mixCol_bytes 0 0 c 0) (mixCol_bytes 0 0 0 d),
        colInv_basis2 c hc, colInv_basis3 d hd]
  have hBCD : invMixColL (mixColL [0, b, c, d]) = [0, b, c, d] := by
    rw [← hbcd, mixColL_additive 0 b 0 0 0 0 c d z hb z z z z hc hd,
        invMixColL_additive2 (mixColL [0, b, 0, 0]) (mixColL [0, 0, c, d]) rfl rfl
          (mixCol_bytes 0 b 0 0) (mixCol_bytes 0 0 c d),
        colInv_basis1 b hb, hCD]
  rw [← habcd, mixColL_additive a 0 0 0 0 b c d ha z z z z hb hc hd,
      invMixColL_additive2 (mixColL [a, 0, 0, 0]) (mixColL [0, b, c, d]) rfl rfl
        (mixCol_bytes a 0 0 0) (mixCol_bytes 0 b c d),
      colInv_basis0 a ha, hBCD]

/-- InvMixColumns undoes MixColumns on 16-byte states. -/
theorem invMixColumns_mixColumns {s : List Nat} (h : s.length = 16) (hs : Bytes s) :
    invMixColumns (mixColumns s) = s := by
  obtain ⟨b0, b1, b2, b3, b4, b5, b6, b7, b8, b9, b10, b11, b12, b13, b14, b15, rfl⟩ :=
    list_len16 h
  have h1 : Bytes [b0, b1, b2, b3] := fun x hx => hs x (by simp at hx; rcases hx with rfl | rfl | rfl | rfl <;> simp)
  have h2 : Bytes [b4, b5, b6, b7] := fun x hx => hs x (by simp at hx; rcases hx with rfl | rfl | rfl | rfl <;> simp)
  have h3 : Bytes [b8, b9, b10, b11] := fun x hx => hs x (by simp at hx; rcases hx with rfl | rfl | rfl | rfl <;> simp)
  have h4 : Bytes [b12, b13, b14, b15] := fun x hx => hs x (by simp at hx; rcases hx with rfl | rfl | rfl | rfl <;> simp)
  show invMixColL (mixColL [b0, b1, b2, b3]) ++ invMixColL (mixColL [b4, b5, b6, b7]) ++
      invMixColL (mixColL [b8, b9, b10, b11]) ++ invMixColL (mixColL [b12, b13, b14, b15]) =
      [b0, b1, b2, b3, b4, b5, b6, b7, b8, b9, b10, b11, b12, b13, b14, b15]
  rw [invMixColL_mixColL [b0, b1, b2, b3] rfl h1, invMixColL_mixColL [b4, b5, b6, b7] rfl h2,
      invMixColL_mixColL [b8, b9, b10, b11] rfl h3,
      invMixColL_mixColL [b12, b13, b14, b15] rfl h4]
  rfl

/-- MixColumns preserves length on 16-byte states. -/
theorem mixColumns_length {s : List Nat} (h : s.length = 16) : (mixColumns s).length = 16 := by
  obtain ⟨b0, b1, b2, b3, b4, b5, b6, b7, b8, b9, b10, b11, b12, b13, b14, b15, rfl⟩ :=
    list_len16 h
  rfl

/-- MixColumns produces bytes, whatever the input. -/
theorem mixColumns_bytes {s : List Nat} (h : s.length = 16) : Bytes (mixColumns s) := by
  obtain ⟨b0, b1, b2, b3, b4, b5, b6, b7, b8, b9, b10, b11, b12, b13, b14, b15, rfl⟩ :=
    list_len16 h
  intro x hx
  simp only [mixColumns, mixCol, List.append_assoc, List.mem_append, List.mem_cons,
    List.not_mem_nil, or_false] at hx
  rcases hx with (rfl | rfl | rfl | rfl) | (rfl | rfl | rfl | rfl) | (rfl | rfl | rfl | rfl) |
      (rfl | rfl | rfl | rfl) <;> exact xorB_lt _ _

/-! ## Key schedule and AddRoundKey -/

/-- Componentwise xor of byte strings always produces bytes. -/
theorem zipXor_bytes (a b : List Nat) : Bytes (zipXor a b) := by
  induction a generalizing b with
  | nil => intro x hx; simp [zipXor] at hx
  | cons x1 t ih =>
    cases b with
    | nil => intro x hx; simp [zipXor] at hx
    | cons y1 u =>
      intro x hx
      rcases List.mem_cons.mp hx with rfl | hx
      · exact xorB_lt _ _
      · exact ih u x hx

/-- Length of a componentwise xor. -/
theorem zipXor_length (a b : List Nat) : (zipXor a b).length = min a.length b.length :=
  List.length_zipWith xorB a b

/-- Chaining xor with the same prefix twice recovers the block. -/
theorem zipXor_cancel (p b : List Nat) (hb : Bytes b) (hlen : b.length ≤ p.length) :
    zipXor p (zipXor p b) = b := by
  induction b generalizing p with
  | nil => simp [zipXor]
  | cons y u ih =>
    cases p with
    | nil => simp at hlen
    | cons x t =>
      have hy : y < 256 := hb y (by simp)
      have hu : Bytes u := fun z hz => hb z (by simp [hz])
      show xorB x (xorB x y) :: zipXor t (zipXor t u) = y :: u
      rw [ih t hu (by simpa using hlen)]
      rw [xorB_comm x (xorB x y), xorB_comm x y, xorB_cancel x hy]

/-- Xor with the same round key twice cancels. -/
theorem zipXor_cancel2 (s k : List Nat) (hs : Bytes s) (hlen : s.length ≤ k.length) :
    zipXor (zipXor s k) k = s := by
  induction s generalizing k with
  | nil => simp [zipXor]
  | cons y u ih =>
    cases k with
    | nil => simp at hlen
    | cons x t =>
      have hy : y < 256 := hs y (by simp)
      have hu : Bytes u := fun z hz => hs z (by simp [hz])
      show xorB (xorB y x) x :: zipXor (zipXor u t) t = y :: u
      rw [ih t hu (by simpa using hlen), xorB_cancel x hy]

/-- Words of the expansion loop all consist of bytes. -/
theorem expandGo_bytes (fuel : Nat) : ∀ i : Nat, ∀ acc : List Word,
    (∀ w ∈ acc, wordBytes w) → ∀ w ∈ expandGo fuel i acc, wordBytes w := by
  induction fuel with
  | zero =>
    intro i acc hacc w hw
    exact hacc w (List.mem_reverse.mp hw)
  | succ f ih =>
    intro i acc hacc w hw
    refine ih (i + 1) _ ?_ w hw
    intro v hv
    rcases List.mem_cons.mp hv with rfl | hv
    · exact ⟨xorB_lt _ _, xorB_lt _ _, xorB_lt _ _, xorB_lt _ _⟩
    · exact hacc v hv

/-- Raw key words consist of bytes. -/
theorem keyWord_bytes (key : List Nat) (i : Nat) : wordBytes (keyWord key i) :=
  ⟨Nat.mod_lt _ (by norm_num), Nat.mod_lt _ (by norm_num), Nat.mod_lt _ (by norm_num),
   Nat.mod_lt _ (by norm_num)⟩

/-- All expanded schedule words consist of bytes. -/
theorem expandWords_bytes (key : List Nat) : ∀ w ∈ expandWords key, wordBytes w := by
  apply expandGo_bytes
  intro w hw
  simp only [List.mem_cons, List.not_mem_nil, or_false] at hw
  rcases hw with rfl | rfl | rfl | rfl | rfl | rfl | rfl | rfl <;> exact keyWord_bytes key _

/-- The flattening of four byte words is a byte string. -/
theorem flat4_bytes (w0 w1 w2 w3 : Word) (h0 : wordBytes w0) (h1 : wordBytes w1)
    (h2 : wordBytes w2) (h3 : wordBytes w3) : Bytes (flat4 w0 w1 w2 w3) := by
  intro x hx
  simp only [flat4, List.mem_cons, List.not_mem_nil, or_false] at hx
  rcases hx with rfl | rfl | rfl | rfl | rfl | rfl | rfl | rfl | rfl | rfl | rfl | rfl |
      rfl | rfl | rfl | rfl <;>
    first
      | exact h0.1 | exact h0.2.1 | exact h0.2.2.1 | exact h0.2.2.2
      | exact h1.1 | exact h1.2.1 | exact h1.2.2.1 | exact h1.2.2.2
      | exact h2.1 | exact h2.2.1 | exact h2.2.2.1 | exact h2.2.2.2
      | exact h3.1 | exact h3.2.1 | exact h3.2.2.1 | exact h3.2.2.2

/-- Every grouped round key is 16 bytes long and consists of bytes. -/
theorem chunkWords_props (ws : List Word) (hw : ∀ w ∈ ws, wordBytes w) :
    ∀ k ∈ chunkWords ws, k.length = 16 ∧ Bytes k := by
  induction ws using chunkWords.induct with
  | case1 w0 w1 w2 w3 rest ih =>
    intro k hk
    rcases List.mem_cons.mp hk with rfl | hk
    · refine ⟨rfl, flat4_bytes w0 w1 w2 w3 ?_ ?_ ?_ ?_⟩ <;> apply hw <;> simp
    · exact ih (fun w hmem => hw w (by simp [hmem])) k hk
  | case2 ws h =>
    intro k hk
    rw [chunkWords.eq_def] at hk
    split at hk
    · next w0 w1 w2 w3 rest => exact absurd rfl (h w0 w1 w2 w3 rest)
    · simp at hk

/-- The AES-256 round keys are 16 bytes long and consist of bytes. -/
theorem roundKeys_props (key : List Nat) :
    ∀ k ∈ roundKeys key, k.length = 16 ∧ Bytes k :=
  chunkWords_props (expandWords key) (expandWords_bytes key)

/-! ## Block cipher inverse -/

/-- AddRoundKey is the componentwise xor. -/
theorem addRK_eq (s k : List Nat) : addRK s k = zipXor s k := rfl

/-- The encryption rounds keep the state at 16 bytes. -/
theorem encRounds_props (rks : List (List Nat)) : ∀ s : List Nat,
    (∀ k ∈ rks, k.length = 16 ∧ Bytes k) → s.length = 16 → Bytes s →
    (encRounds rks s).length = 16 ∧ Bytes (encRounds rks s) := by
  induction rks with
  | nil => exact fun s _ hs hB => ⟨hs, hB⟩
  | cons k rest ih =>
    intro s hr hs hB
    obtain ⟨hk16, _⟩ := hr k (by simp)
    rcases rest with _ | ⟨k2, rest2⟩
    · show (addRK (shiftRows (subBytes s)) k).length = 16 ∧ Bytes (addRK (shiftRows (subBytes s)) k)
      constructor
      · rw [addRK_eq, zipXor_length, shiftRows_length (by rw [subBytes_length, hs]), hk16]
        simp
      · exact zipXor_bytes _ _
    · show (encRounds (k2 :: rest2) (addRK (mixColumns (shiftRows (subBytes s))) k)).length = 16 ∧ _
      apply ih _ (fun j hj => hr j (by simp [hj]))
      · rw [addRK_eq, zipXor_length,
            mixColumns_length (shiftRows_length (by rw [subBytes_length, hs])), hk16]
        simp
      · exact zipXor_bytes _ _

/-- The decryption rounds undo the encryption rounds for any round key
list whose keys are 16-byte strings. -/
theorem decRounds_encRounds (rks : List (List Nat)) : ∀ s : List Nat,
    (∀ k ∈ rks, k.length = 16 ∧ Bytes k) → s.length = 16 → Bytes s →
    decRounds rks (encRounds rks s) = s := by
  induction rks with
  | nil => exact fun s _ _ _ => rfl
  | cons k rest ih =>
    intro s hr hs hB
    obtain ⟨hk16, _⟩ := hr k (by simp)
    have hsub16 : (subBytes s).length = 16 := by rw [subBytes_length, hs]
    have hshift16 : (shiftRows (subBytes s)).length = 16 := shiftRows_length hsub16
    have hshiftB : Bytes (shiftRows (subBytes s)) := shiftRows_bytes hsub16 (subBytes_bytes s)
    rcases rest with _ | ⟨k2, rest2⟩
    · show invSubBytes (invShiftRows (addRK (addRK (shiftRows (subBytes s)) k) k)) = s
      simp only [addRK_eq]
      rw [zipXor_cancel2 _ k hshiftB (by rw [hshift16, hk16]),
          invShiftRows_shiftRows hsub16, invSubBytes_subBytes hB]
    · have hmix16 : (mixColumns (shiftRows (subBytes s))).length = 16 :=
        mixColumns_length hshift16
      have hmixB : Bytes (mixColumns (shiftRows (subBytes s))) := mixColumns_bytes hshift16
      have hs2len : (zipXor (mixColumns (shiftRows (subBytes s))) k).length = 16 := by
        rw [zipXor_length, hmix16, hk16]
        simp
      show invSubBytes (invShiftRows (invMixColumns (addRK (decRounds (k2 :: rest2)
          (encRounds (k2 :: rest2) (addRK (mixColumns (shiftRows (subBytes s))) k))) k))) = s
      simp only [addRK_eq]
      rw [ih _ (fun j hj => hr j (by simp [hj])) hs2len (zipXor_bytes _ _),
          zipXor_cancel2 _ k hmixB (by rw [hmix16, hk16]),
          invMixColumns_mixColumns hshift16 hshiftB,
          invShiftRows_shiftRows hsub16, invSubBytes_subBytes hB]

/-- Block decryption undoes block encryption for any round key list of
16-byte keys. -/
theorem decBlockWith_encBlockWith (rks : List (List Nat)) (b : List Nat)
    (hr : ∀ k ∈ rks, k.length = 16 ∧ Bytes k) (hb : b.length = 16) (hB : Bytes b) :
    decBlockWith rks (encBlockWith rks b) = b := by
  rcases rks with _ | ⟨k0, rest⟩
  · rfl
  · obtain ⟨hk16, _⟩ := hr k0 (by simp)
    show addRK (decRounds rest (encRounds rest (addRK b k0))) k0 = b
    simp only [addRK_eq]
    rw [decRounds_encRounds rest _ (fun j hj => hr j (by simp [hj]))
          (by rw [zipXor_length, hb, hk16]; simp) (zipXor_bytes _ _),
        zipXor_cancel2 b k0 hB (by rw [hb, hk16])]

/-- AES-256 block decryption undoes block encryption on 16-byte blocks,
for every key. -/
theorem aesDecBlock_aesEncBlock (key b : List Nat) (hb : b.length = 16) (hB : Bytes b) :
    aesDecBlock key (aesEncBlock key b) = b :=
  decBlockWith_encBlockWith (roundKeys key) b (roundKeys_props key) hb hB

/-- The AES block output is 16 bytes of bytes. -/
theorem aesEncBlock_props (key b : List Nat) (hb : b.length = 16) (hB : Bytes b) :
    (aesEncBlock key b).length = 16 ∧ Bytes (aesEncBlock key b) := by
  unfold aesEncBlock encBlockWith
  split
  · exact ⟨hb, hB⟩
  · next k0 rest heq =>
    obtain ⟨hk16, _⟩ := roundKeys_props key k0 (by rw [heq]; simp)
    apply encRounds_props rest _ (fun j hj => roundKeys_props key j (by rw [heq]; simp [hj]))
    · rw [addRK_eq, zipXor_length, hb, hk16]
      simp
    · exact zipXor_bytes _ _

/-! ## CBC chaining, chunking, padding -/

/-- Every CBC ciphertext block is 16 bytes of bytes, for any block
cipher that maps 16-byte blocks to 16-byte blocks. -/
theorem cbcEncBlocks_props (enc : List Nat → List Nat)
    (hencOk : ∀ x : List Nat, x.length = 16 → Bytes x → (enc x).length = 16 ∧ Bytes (enc x))
    (bs : List (List Nat)) : ∀ prev : List Nat,
    prev.length = 16 → Bytes prev → (∀ b ∈ bs, b.length = 16 ∧ Bytes b) →
    ∀ c ∈ cbcEncBlocks enc prev bs, c.length = 16 ∧ Bytes c := by
  induction bs with
  | nil => intro prev _ _ _ c hc; simp [cbcEncBlocks] at hc
  | cons b rest ih =>
    intro prev hp hpB hbs c hc
    obtain ⟨hb16, hbB⟩ := hbs b (by simp)
    have hxlen : (zipXor prev b).length = 16 := by
      rw [zipXor_length, hp, hb16]
      simp
    have henc := hencOk (zipXor prev b) hxlen (zipXor_bytes _ _)
    simp only [cbcEncBlocks, List.mem_cons] at hc
    rcases hc with rfl | hc
    · exact henc
    · exact ih (enc (zipXor prev b)) henc.1 henc.2
        (fun j hj => hbs j (by simp [hj])) c hc

/-- CBC encryption produces one ciphertext block per plaintext block. -/
theorem cbcEncBlocks_length (enc : List Nat → List Nat) (bs : List (List Nat)) :
    ∀ prev : List Nat, (cbcEncBlocks enc prev bs).length = bs.length := by
  induction bs with
  | nil => intro prev; rfl
  | cons b rest ih =>
    intro prev
    show (enc (zipXor prev b) :: cbcEncBlocks enc (enc (zipXor prev b)) rest).length = _
    simp [ih]

/-- CBC decryption undoes CBC encryption under the same AES key. -/
theorem cbcDec_cbcEnc (key : List Nat) (bs : List (List Nat)) : ∀ prev : List Nat,
    prev.length = 16 → Bytes prev → (∀ b ∈ bs, b.length = 16 ∧ Bytes b) →
    cbcDecBlocks (aesDecBlock key) prev (cbcEncBlocks (aesEncBlock key) prev bs) = bs := by
  induction bs with
  | nil => intro prev _ _ _; rfl
  | cons b rest ih =>
    intro prev hp hpB hbs
    obtain ⟨hb16, hbB⟩ := hbs b (by simp)
    have hxlen : (zipXor prev b).length = 16 := by
      rw [zipXor_length, hp, hb16]
      simp
    have henc := aesEncBlock_props key (zipXor prev b) hxlen (zipXor_bytes _ _)
    simp only [cbcEncBlocks, cbcDecBlocks]
    rw [aesDecBlock_aesEncBlock key _ hxlen (zipXor_bytes _ _),
        zipXor_cancel prev b hbB (by rw [hb16, hp]),
        ih _ henc.1 henc.2 (fun j hj => hbs j (by simp [hj]))]

/-- Flattening the chunks restores the byte string. -/
theorem flatten_chunk16 (l : List Nat) : (chunk16 l).flatten = l := by
  induction l using chunk16.induct with
  | case1 => rfl
  | case2 b0 b1 b2 b3 b4 b5 b6 b7 b8 b9 b10 b11 b12 b13 b14 b15 rest ih =>
    simp [chunk16, ih]
  | case3 l h1 h2 =>
    rw [chunk16.eq_def]
    split
    · rfl
    · next b0 b1 b2 b3 b4 b5 b6 b7 b8 b9 b10 b11 b12 b13 b14 b15 rest =>
      exact absurd rfl (h2 b0 b1 b2 b3 b4 b5 b6 b7 b8 b9 b10 b11 b12 b13 b14 b15 rest)
    · simp

/-- Chunking the flattening of 16-byte blocks restores the blocks. -/
theorem chunk16_flatten_inv (bs : List (List Nat)) (h : ∀ b ∈ bs, b.length = 16) :
    chunk16 bs.flatten = bs := by
  induction bs with
  | nil => rfl
  | cons b rest ih =>
    obtain ⟨b0, b1, b2, b3, b4, b5, b6, b7, b8, b9, b10, b11, b12, b13, b14, b15, rfl⟩ :=
      list_len16 (h b (by simp))
    show chunk16 (b0 :: b1 :: b2 :: b3 :: b4 :: b5 :: b6 :: b7 :: b8 :: b9 :: b10 :: b11 ::
      b12 :: b13 :: b14 :: b15 :: rest.flatten) = _
    rw [chunk16]
    rw [ih (fun j hj => h j (by simp [hj]))]

/-- A list of length at least 16 splits off 16 leading elements. -/
theorem exists_16_decomp (l : List Nat) (h : 16 ≤ l.length) :
    ∃ b0 b1 b2 b3 b4 b5 b6 b7 b8 b9 b10 b11 b12 b13 b14 b15 rest,
      l = b0 :: b1 :: b2 :: b3 :: b4 :: b5 :: b6 :: b7 :: b8 :: b9 :: b10 :: b11 ::
        b12 :: b13 :: b14 :: b15 :: rest := by
  have h1 : (l.take 16).length = 16 := by
    rw [List.length_take]
    omega
  obtain ⟨b0, b1, b2, b3, b4, b5, b6, b7, b8, b9, b10, b11, b12, b13, b14, b15, he⟩ :=
    list_len16 h1
  refine ⟨b0, b1, b2, b3, b4, b5, b6, b7, b8, b9, b10, b11, b12, b13, b14, b15, l.drop 16, ?_⟩
  conv_lhs => rw [← List.take_append_drop 16 l]
  rw [he]
  rfl

/-- Chunks of a byte string whose length is a multiple of 16 are all 16
bytes long. -/
theorem chunk16_props (l : List Nat) (hmod : l.length % 16 = 0) :
    ∀ b ∈ chunk16 l, b.length = 16 := by
  induction l using chunk16.induct with
  | case1 => intro b hb; simp [chunk16] at hb
  | case2 b0 b1 b2 b3 b4 b5 b6 b7 b8 b9 b10 b11 b12 b13 b14 b15 rest ih =>
    intro b hb
    rw [chunk16] at hb
    rcases List.mem_cons.mp hb with rfl | hb
    · rfl
    · refine ih ?_ b hb
      simp only [List.length_cons] at hmod
      omega
  | case3 l h1 h2 =>
    intro b hb
    exfalso
    have hlen : l.length < 16 := by
      by_contra hc
      obtain ⟨b0, b1, b2, b3, b4, b5, b6, b7, b8, b9, b10, b11, b12, b13, b14, b15, rest, he⟩ :=
        exists_16_decomp l (by omega)
      exact h2 b0 b1 b2 b3 b4 b5 b6 b7 b8 b9 b10 b11 b12 b13 b14 b15 rest he
    have hpos : 0 < l.length := List.length_pos.mpr h1
    omega

/-- Chunks of a byte string consist of bytes. -/
theorem chunk16_bytes (l : List Nat) (hB : Bytes l) : ∀ b ∈ chunk16 l, Bytes b := by
  intro b hb x hx
  apply hB
  rw [← flatten_chunk16 l]
  exact List.mem_flatten.mpr ⟨b, hb, hx⟩

/-- The padded plaintext has a length that is a positive multiple of
16. -/
theorem pkcs7pad_length (pt : List Nat) :
    (pkcs7pad pt).length = pt.length + (16 - pt.length % 16) := by
  simp [pkcs7pad]

/-- The padded length is a multiple of 16. -/
theorem pkcs7pad_mod (pt : List Nat) : (pkcs7pad pt).length % 16 = 0 := by
  rw [pkcs7pad_length]
  have := Nat.mod_lt pt.length (show 0 < 16 by norm_num)
  omega

/-- The padded plaintext is nonempty. -/
theorem pkcs7pad_ne (pt : List Nat) : pkcs7pad pt ≠ [] := by
  intro h
  have := congrArg List.length h
  rw [pkcs7pad_length] at this
  simp at this
  omega

/-- Padding preserves the byte property (the pad byte is at most 16). -/
theorem pkcs7pad_bytes (pt : List Nat) (h : Bytes pt) : Bytes (pkcs7pad pt) := by
  intro x hx
  rcases List.mem_append.mp hx with hx | hx
  · exact h x hx
  · have := List.eq_of_mem_replicate hx
    subst this
    have := Nat.mod_lt pt.length (show 0 < 16 by norm_num)
    omega

/-- Unpadding undoes padding, for every plaintext byte string. -/
theorem pkcs7unpad_pad (pt : List Nat) : pkcs7unpad (pkcs7pad pt) = some pt := by
  set n := 16 - pt.length % 16 with hn
  have hmlt : pt.length % 16 < 16 := Nat.mod_lt _ (by norm_num)
  have hn1 : 1 ≤ n := by omega
  have hn16 : n ≤ 16 := by omega
  obtain ⟨m, hm⟩ : ∃ m, n = m + 1 := ⟨n - 1, by omega⟩
  have hsplit : pkcs7pad pt = (pt ++ List.replicate m n) ++ [n] := by
    show pt ++ List.replicate n n = _
    rw [hm, List.replicate_succ', ← List.append_assoc]
  have hlen : (pkcs7pad pt).length = pt.length + n := by
    rw [pkcs7pad_length, hn]
  have hlast : (pkcs7pad pt).getLast? = some n := by
    rw [hsplit]
    exact List.getLast?_concat _
  have hidx : (pkcs7pad pt).length - n = pt.length := by omega
  have hdrop : (pkcs7pad pt).drop ((pkcs7pad pt).length - n) = List.replicate n n := by
    rw [hidx]
    show (pt ++ List.replicate n n).drop pt.length = _
    exact List.drop_left _ _
  have hall : ((pkcs7pad pt).drop ((pkcs7pad pt).length - n)).all (· = n) = true := by
    rw [hdrop]
    simp [List.all_eq_true, List.mem_replicate]
  have hcond : ¬ (n = 0 ∨ 16 < n ∨ (pkcs7pad pt).length < n) := by omega
  unfold pkcs7unpad
  rw [hlast]
  show (if n = 0 ∨ 16 < n ∨ (pkcs7pad pt).length < n then none
    else if ((pkcs7pad pt).drop ((pkcs7pad pt).length - n)).all (· = n) then
      some ((pkcs7pad pt).take ((pkcs7pad pt).length - n)) else none) = some pt
  rw [if_neg hcond, if_pos hall, hidx]
  show some ((pt ++ List.replicate n n).take pt.length) = some pt
  rw [List.take_left]

/-! ## Hex, token syntax, UTF-8 -/

/-- Flattening all-16-byte blocks yields sixteen bytes per block. -/
theorem flatten_len16 (bs : List (List Nat)) (h : ∀ b ∈ bs, b.length = 16) :
    bs.flatten.length = 16 * bs.length := by
  induction bs with
  | nil => rfl
  | cons b rest ih =>
    show (b ++ rest.flatten).length = _
    rw [List.length_append, h b (by simp), ih (fun j hj => h j (by simp [hj]))]
    simp [List.length_cons]
    ring

/-- Hex digits decode back to their value. -/
theorem hexVal_hexDigitChar : ∀ n, n < 16 → hexVal (hexDigitChar n) = some n := by decide

/-- Hex digits are never the colon delimiter. -/
theorem hexDigitChar_ne_colon (n : Nat) : hexDigitChar n ≠ ':' := by
  have h : ∀ m, m < 16 → hexDigitChar m ≠ ':' := by decide
  have h2 : hexDigitChar (n % 16) = hexDigitChar n := by
    unfold hexDigitChar
    rw [Nat.mod_mod]
  rw [← h2]
  exact h (n % 16) (Nat.mod_lt _ (by norm_num))

/-- Hex encodings contain no colon. -/
theorem hexChars_no_colon (bs : List Nat) : ∀ c ∈ hexChars bs, c ≠ ':' := by
  intro c hc
  rcases List.mem_flatMap.mp hc with ⟨b, _, hcb⟩
  simp only [hexByteChars, List.mem_cons, List.not_mem_nil, or_false] at hcb
  rcases hcb with rfl | rfl <;> exact hexDigitChar_ne_colon _

/-- The lenient hex decoder inverts the hex encoder on byte strings. -/
theorem hexDecode_hexChars (bs : List Nat) (h : Bytes bs) : hexDecode (hexChars bs) = bs := by
  induction bs with
  | nil => rfl
  | cons b t ih =>
    have hb : b < 256 := h b (by simp)
    have ht : Bytes t := fun x hx => h x (by simp [hx])
    have h1 : b / 16 % 16 < 16 := Nat.mod_lt _ (by norm_num)
    have h2 : b % 16 < 16 := Nat.mod_lt _ (by norm_num)
    show hexDecode (hexDigitChar (b / 16 % 16) :: hexDigitChar (b % 16) :: hexChars t) = b :: t
    rw [hexDecode, hexVal_hexDigitChar _ h1, hexVal_hexDigitChar _ h2]
    show (16 * (b / 16 % 16) + b % 16) :: hexDecode (hexChars t) = b :: t
    rw [ih ht]
    congr 1
    omega

/-- Splitting a colon-free character list yields one segment. -/
theorem splitOnColon_no_colon (cs : List Char) (h : ∀ c ∈ cs, c ≠ ':') :
    splitOnColon cs = [cs] := by
  induction cs with
  | nil => rfl
  | cons c t ih =>
    have hc : ¬ (c = ':') := h c (by simp)
    have ht : splitOnColon t = [t] := ih (fun x hx => h x (by simp [hx]))
    simp [splitOnColon, ht, hc]

/-- Splitting around the first colon separates the colon-free prefix. -/
theorem splitOnColon_append (a b : List Char) (h : ∀ c ∈ a, c ≠ ':') :
    splitOnColon (a ++ ':' :: b) = a :: splitOnColon b := by
  induction a with
  | nil => simp [splitOnColon]
  | cons c t ih =>
    have hc : ¬ (c = ':') := h c (by simp)
    have ht := ih (fun x hx => h x (by simp [hx]))
    simp [splitOnColon, ht, hc]

/-- Joining a single segment is that segment. -/
theorem joinColon_single (p : List Char) : joinColon [p] = p := rfl

/-- UTF-8 encodings consist of bytes. -/
theorem utf8Bytes_bytes (s : String) : Bytes (utf8Bytes s) := by
  intro x hx
  rcases List.mem_flatMap.mp hx with ⟨ch, _, hb⟩
  unfold utf8EncodeChar at hb
  split_ifs at hb <;>
    simp only [List.mem_cons, List.not_mem_nil, or_false] at hb <;>
    rcases hb with rfl | rfl | rfl | rfl <;> omega

/-! ## The decrypt-encrypt round trip -/

/-- With a well-formed key and IV, `encrypt` cannot throw. -/
theorem encrypt_ok (key iv pt : List Nat) (hk : key.length = 32) (hiv : iv.length = 16) :
    encrypt key iv pt = .ok (String.mk (encryptRaw key iv pt)) := by
  unfold encrypt
  rw [if_neg (by simp [hk]), if_neg (by simp [hiv])]

/-- Decrypting a token produced by `encrypt` under the same key restores
the plaintext exactly, for every plaintext byte string. -/
theorem decrypt_encryptRaw (key iv pt : List Nat) (hk : key.length = 32)
    (hiv : iv.length = 16) (hivB : Bytes iv) (hptB : Bytes pt) :
    decrypt key (String.mk (encryptRaw key iv pt)) = .ok pt := by
  have hpadB := pkcs7pad_bytes pt hptB
  have hblocks : ∀ b ∈ chunk16 (pkcs7pad pt), b.length = 16 ∧ Bytes b :=
    fun b hb => ⟨chunk16_props _ (pkcs7pad_mod pt) b hb, chunk16_bytes _ hpadB b hb⟩
  set cbs := cbcEncBlocks (aesEncBlock key) iv (chunk16 (pkcs7pad pt)) with hcbsdef
  have hcbs : ∀ c ∈ cbs, c.length = 16 ∧ Bytes c :=
    cbcEncBlocks_props (aesEncBlock key) (fun x hx hB => aesEncBlock_props key x hx hB) _
      iv hiv hivB hblocks
  have hct_len : cbs.flatten.length = 16 * cbs.length :=
    flatten_len16 cbs (fun b hb => (hcbs b hb).1)
  have hcbs_ne : cbs ≠ [] := by
    intro hnil
    have h1 := cbcEncBlocks_length (aesEncBlock key) (chunk16 (pkcs7pad pt)) iv
    rw [← hcbsdef, hnil] at h1
    have h3 : chunk16 (pkcs7pad pt) = [] := List.length_eq_zero.mp h1.symm
    have h4 := flatten_chunk16 (pkcs7pad pt)
    rw [h3] at h4
    exact pkcs7pad_ne pt h4.symm
  have hctB : Bytes cbs.flatten := by
    intro x hx
    rcases List.mem_flatten.mp hx with ⟨b, hb, hxb⟩
    exact (hcbs b hb).2 x hxb
  have hdata : (String.mk (encryptRaw key iv pt)).data =
      hexChars iv ++ ':' :: hexChars cbs.flatten := rfl
  unfold decrypt
  rw [hdata, splitOnColon_append _ _ (hexChars_no_colon iv),
      splitOnColon_no_colon _ (hexChars_no_colon cbs.flatten)]
  show (if key.length ≠ 32 then Except.error CryptoErr.badKeyLength
    else if (hexDecode (hexChars iv)).length ≠ 16 then Except.error CryptoErr.badIvLength
    else if (hexDecode (joinColon [hexChars cbs.flatten])).length = 0 ∨
        (hexDecode (joinColon [hexChars cbs.flatten])).length % 16 ≠ 0 then
      Except.error CryptoErr.badBlockLength
    else
      match pkcs7unpad (cbcDecBlocks (aesDecBlock key) (hexDecode (hexChars iv))
          (chunk16 (hexDecode (joinColon [hexChars cbs.flatten])))).flatten with
      | none => Except.error CryptoErr.badPadding
      | some p => Except.ok p) = Except.ok pt
  rw [joinColon_single, hexDecode_hexChars iv hivB, hexDecode_hexChars cbs.flatten hctB]
  have hpos : 0 < cbs.length := List.length_pos.mpr hcbs_ne
  rw [if_neg (by simp [hk]), if_neg (by simp [hiv]), if_neg (by rw [hct_len]; omega),
      chunk16_flatten_inv cbs (fun b hb => (hcbs b hb).1), hcbsdef,
      cbcDec_cbcEnc key (chunk16 (pkcs7pad pt)) iv hiv hivB hblocks,
      flatten_chunk16, pkcs7unpad_pad]


/-! ## Store helper lemmas -/

/-- The empty string is the only falsy string. -/
theorem empty_isEmpty : ("" : String).isEmpty = true := rfl

/-- A nonempty string is truthy. -/
theorem isEmpty_false_of_ne {s : String} (h : ¬ s = "") : s.isEmpty = false := by
  rcases hh : s.isEmpty with _ | _
  · rfl
  · exact absurd ((String.isEmpty_iff s).mp hh) h

/-- Writing the calendar list of one email leaves every other record
untouched. -/
theorem setCalendarIds_frame (st : RedisState) (email : String) (cals : List Cal)
    (e : String) (he : ¬ e = email) : setCalendarIds st email cals e = st e := by
  simp [setCalendarIds, he]

/-- Writing the calendar list leaves the password field of the same
record untouched. -/
theorem setCalendarIds_password (st : RedisState) (email : String) (cals : List Cal) :
    (setCalendarIds st email cals email).password = (st email).password := by
  simp [setCalendarIds]

/-- Writing the calendar list leaves the scalar calendarId field of the
same record untouched. -/
theorem setCalendarIds_calendarId (st : RedisState) (email : String) (cals : List Cal) :
    (setCalendarIds st email cals email).calendarId = (st email).calendarId := by
  simp [setCalendarIds]

/-- Reading the calendar list back after writing it. -/
theorem calsOf_setCalendarIds (st : RedisState) (email : String) (cals : List Cal) :
    calsOf (setCalendarIds st email cals) email = cals := by
  simp [calsOf, setCalendarIds]

/-- Reduction of `decrypt` once the token has been split. -/
theorem decrypt_parsed (key : List Nat) (s : String) (ivPart : List Char)
    (rest : List (List Char)) (hsplit : splitOnColon s.data = ivPart :: rest) :
    decrypt key s =
      (if key.length ≠ 32 then Except.error CryptoErr.badKeyLength
       else if (hexDecode ivPart).length ≠ 16 then Except.error CryptoErr.badIvLength
       else if (hexDecode (joinColon rest)).length = 0 ∨
           (hexDecode (joinColon rest)).length % 16 ≠ 0 then
         Except.error CryptoErr.badBlockLength
       else
         match pkcs7unpad (cbcDecBlocks (aesDecBlock key) (hexDecode ivPart)
             (chunk16 (hexDecode (joinColon rest)))).flatten with
         | none => Except.error CryptoErr.badPadding
         | some p => Except.ok p) := by
  unfold decrypt
  rw [hsplit]

/-! ## C3 -/

/-- C3 counterexample: appending two non-hex characters to a valid token
leaves the Node hex decoding of the ciphertext segment unchanged (the
decoder silently stops at the first invalid character), so `decrypt`
returns the original plaintext even though the ciphertext segment is not
valid hex — the claim that decrypt never returns a value for such inputs
is false. -/
theorem c3_counterexample :
    hexVal 'z' = none ∧
    'z' ∈ joinColon (splitOnColon (String.data (tok0 ++ "zz"))).tail ∧
    decrypt key0 (tok0 ++ "zz") = .ok pt0 := by
  refine ⟨by decide, by decide, by decide⟩

/-- C3 amended: a token lacking the colon delimiter always fails (its IV
segment cannot decode to 16 bytes together with a nonempty ciphertext),
and a token whose IV segment does not decode to exactly 16 bytes always
fails; but a segment containing invalid hex after a decodable prefix can
still succeed, and the failures are untyped crypto exceptions rather than
a distinguished MalformedToken value. -/
theorem c3_amended_malformed_rejections (key : List Nat) (s : String) :
    (¬ ':' ∈ s.data → ∃ e, decrypt key s = .error e) ∧
    (∀ ivPart rest, splitOnColon s.data = ivPart :: rest →
      (hexDecode ivPart).length ≠ 16 → ∃ e, decrypt key s = .error e) := by
  constructor
  · intro h
    have hnc : ∀ c ∈ s.data, c ≠ ':' := fun c hc he => h (he ▸ hc)
    have hred := decrypt_parsed key s s.data [] (splitOnColon_no_colon s.data hnc)
    rw [hred]
    by_cases hk : key.length ≠ 32
    · exact ⟨.badKeyLength, by rw [if_pos hk]⟩
    · by_cases hv : (hexDecode s.data).length ≠ 16
      · exact ⟨.badIvLength, by rw [if_neg hk, if_pos hv]⟩
      · exact ⟨.badBlockLength, by rw [if_neg hk, if_neg hv]; simp [joinColon, hexDecode]⟩
  · intro ivPart rest hsplit hbad
    have hred := decrypt_parsed key s ivPart rest hsplit
    rw [hred]
    by_cases hk : key.length ≠ 32
    · exact ⟨.badKeyLength, by rw [if_pos hk]⟩
    · exact ⟨.badIvLength, by rw [if_neg hk, if_pos hbad]⟩

/-- C3 witness: the amended theorem applied at a concrete
delimiter-free token. -/
theorem c3_witness : ∃ e, decrypt key0 "deadbeef" = .error e :=
  (c3_amended_malformed_rejections key0 "deadbeef").1 (by decide)

/-! ## C4 -/

/-- C4 counterexample: decrypting a token produced under `key0` with the
different 32-byte key `key1` does not fail: the CBC decryption happens to
end in a valid PKCS#7 pad, so `decrypt` silently returns garbage bytes
that differ from the plaintext. -/
theorem c4_counterexample :
    encrypt key0 iv0 pt0 = .ok tok0 ∧
    key1 ≠ key0 ∧
    key1.length = 32 ∧
    decrypt key1 tok0 = .ok garbage0 ∧
    garbage0 ≠ pt0 := by
  refine ⟨by decide, by decide, by decide, by decide, by decide⟩

/-- C4 amended: encrypt followed by decrypt under the same 32-byte key is
an exact round trip for every plaintext byte string (in particular every
UTF-8 plaintext, whose encoding is a byte string) and every 16-byte IV;
decrypting with a different key usually fails with a padding error but
may instead return garbage when the altered decryption happens to end in
valid padding, as the counterexample shows. -/
theorem c4_amended_roundtrip (key iv pt : List Nat) (hk : key.length = 32)
    (hiv : iv.length = 16) (hivB : Bytes iv) (hptB : Bytes pt) :
    (∀ s : String, Bytes (utf8Bytes s)) ∧
    encrypt key iv pt = .ok (String.mk (encryptRaw key iv pt)) ∧
    decrypt key (String.mk (encryptRaw key iv pt)) = .ok pt :=
  ⟨utf8Bytes_bytes, encrypt_ok key iv pt hk hiv,
   decrypt_encryptRaw key iv pt hk hiv hivB hptB⟩

/-- C4 witness: the amended theorem applied at concrete inputs. -/
theorem c4_witness : decrypt key0 (String.mk (encryptRaw key0 iv0 pt0)) = .ok pt0 :=
  (c4_amended_roundtrip key0 iv0 pt0 (by decide) (by decide) (by decide) (by decide)).2.2

/-! ## C1 -/

/-- C1 counterexample: with no session the gate answers 401 with body
`\x7b error: "Not logged in" \x7d`, while with a session naming an email
that has no stored password it answers 401 with body
`\x7b error: "Invalid session" \x7d`; the two bodies differ, so the two
causes are distinguishable by a client observing status and body,
contrary to the claim. -/
theorem c1_counterexample :
    authMiddleware [] none emptyState = .reject ⟨401, .errMsg "Not logged in"⟩ ∧
    authMiddleware [] (some "a@x.com") emptyState = .reject ⟨401, .errMsg "Invalid session"⟩ ∧
    Body.errMsg "Not logged in" ≠ Body.errMsg "Invalid session" := by
  refine ⟨rfl, by decide, by decide⟩

/-- C1 amended: both failure causes yield HTTP status 401, but the bodies
carry different messages ("Not logged in" for an absent or empty session
claim, "Invalid session" for a session naming an email with no stored
password), so the two causes are distinguishable by the body. -/
theorem c1_amended_both_401_but_distinguishable (key : List Nat) (st : RedisState) :
    (∀ sess : Option String, sess = none ∨ sess = some "" →
      authMiddleware key sess st = .reject ⟨401, .errMsg "Not logged in"⟩) ∧
    (∀ e : String, ¬ e = "" → ((st e).password = none ∨ (st e).password = some "") →
      authMiddleware key (some e) st = .reject ⟨401, .errMsg "Invalid session"⟩) ∧
    Body.errMsg "Not logged in" ≠ Body.errMsg "Invalid session" := by
  refine ⟨?_, ?_, by decide⟩
  · rintro sess (rfl | rfl)
    · rfl
    · simp [authMiddleware, empty_isEmpty]
  · intro e he hp
    have he2 : e.isEmpty = false := isEmpty_false_of_ne he
    rcases hp with hp | hp <;> simp [authMiddleware, he2, hp, empty_isEmpty]

/-- C1 witness: the amended theorem applied at concrete inputs. -/
theorem c1_witness :
    authMiddleware [] none emptyState = .reject ⟨401, .errMsg "Not logged in"⟩ ∧
    authMiddleware [] (some "b@x.com") emptyState = .reject ⟨401, .errMsg "Invalid session"⟩ :=
  ⟨(c1_amended_both_401_but_distinguishable [] emptyState).1 none (Or.inl rfl),
   (c1_amended_both_401_but_distinguishable [] emptyState).2.1 "b@x.com" (by decide)
     (Or.inl rfl)⟩

/-! ## C2 -/

/-- C2 counterexample: a session resolving to an email whose stored
ciphertext exists but cannot be decrypted does not produce an HTTP 401:
the decrypt throw escapes the middleware as an unhandled exception (the
framework error handler turns it into a 500-class response), because the
middleware has no try/catch around `decrypt`. -/
theorem c2_counterexample :
    (stInvalidCred "a@x.com").password = some "xx" ∧
    decrypt key0 "xx" = .error .badIvLength ∧
    authMiddleware key0 (some "a@x.com") stInvalidCred = .exception ∧
    authMiddleware key0 (some "a@x.com") stInvalidCred ≠
      .reject ⟨401, .errMsg "Invalid session"⟩ := by
  refine ⟨by decide, by decide, by decide, by decide⟩

/-- C2 amended: when the session resolves to an email whose stored
ciphertext exists but `decrypt` fails on it, the gate neither answers 401
nor any response of its own: the exception propagates out of the
middleware unhandled (surfacing through the framework error handler, not
as the claimed 401). -/
theorem c2_amended_decrypt_failure_is_exception (key : List Nat) (st : RedisState)
    (e enc : String) (err : CryptoErr) (he : ¬ e = "") (hp : (st e).password = some enc)
    (henc : ¬ enc = "") (hd : decrypt key enc = .error err) :
    authMiddleware key (some e) st = .exception := by
  have he2 : e.isEmpty = false := isEmpty_false_of_ne he
  have henc2 : enc.isEmpty = false := isEmpty_false_of_ne henc
  simp [authMiddleware, he2, hp, henc2, hd]

/-- C2 witness: the amended theorem applied at concrete inputs. -/
theorem c2_witness : authMiddleware key0 (some "b@x.com")
    (fun e => if e = "b@x.com" then ⟨some "xx", none, none⟩ else emptyRecord) = .exception :=
  c2_amended_decrypt_failure_is_exception key0 _ "b@x.com" "xx" .badIvLength
    (by decide) (by decide) (by decide) (by decide)

/-! ## C5 -/

/-- C5: when the inbox bind probe of /login fails (any thrown error,
including network failure), the handler answers 401 with the error
details and neither the record store nor the session is changed: no
UserRecord is created or updated. -/
theorem c5_login_probe_failure_rejects_and_preserves_store
    (key iv : List Nat) (email pw m : String) (folders : Except Unit (List Folder))
    (st : RedisState) (sess : Option String) :
    login key iv email pw (.error m) folders st sess =
      (⟨401, .errWithDetails "Invalid credentials" m⟩, st, sess) := rfl

/-! ## C7 -/

/-- C7 counterexample: a successful /update-calendar-id call does not
mutate the stored calendars sequence: on a record holding one calendar
the call succeeds yet `calendarIds` still holds exactly that calendar. -/
theorem c7_counterexample :
    (updateCalendarId (some "a@x.com") (some "F2") stOneCal).1 =
      ⟨200, .opOk "Calendar ID updated successfully"⟩ ∧
    calsOf (updateCalendarId (some "a@x.com") (some "F2") stOneCal).2 "a@x.com" =
      [⟨"F1", "Calendar"⟩] ∧
    calsOf stOneCal "a@x.com" = [⟨"F1", "Calendar"⟩] := by
  refine ⟨by decide, by decide, by decide⟩

/-- C7 amended: /update-calendar-id does not operate on the `calendars`
sequence: a successful call writes the separate scalar `calendarId` hash
field and leaves the `calendarIds` sequence (and every other record)
unchanged. -/
theorem c7_amended_update_writes_scalar_not_sequence (sess cid : String) (st : RedisState)
    (hs : ¬ sess = "") (hc : ¬ cid = "") :
    updateCalendarId (some sess) (some cid) st =
      (⟨200, .opOk "Calendar ID updated successfully"⟩, setCalendarIdField st sess cid) ∧
    ((setCalendarIdField st sess cid) sess).calendarIds = (st sess).calendarIds ∧
    ((setCalendarIdField st sess cid) sess).calendarId = some cid ∧
    (∀ e, ¬ e = sess → setCalendarIdField st sess cid e = st e) := by
  have hs2 : sess.isEmpty = false := isEmpty_false_of_ne hs
  have hc2 : cid.isEmpty = false := isEmpty_false_of_ne hc
  refine ⟨?_, by simp [setCalendarIdField], by simp [setCalendarIdField], ?_⟩
  · simp [updateCalendarId, hs2, hc2, setCalendarIdField]
  · intro e he
    simp [setCalendarIdField, he]

/-- C7 witness: the amended theorem applied at concrete inputs. -/
theorem c7_witness :
    updateCalendarId (some "a@x.com") (some "F2") stOneCal =
      (⟨200, .opOk "Calendar ID updated successfully"⟩,
       setCalendarIdField stOneCal "a@x.com" "F2") ∧
    ((setCalendarIdField stOneCal "a@x.com" "F2") "a@x.com").calendarIds =
      (stOneCal "a@x.com").calendarIds :=
  ⟨(c7_amended_update_writes_scalar_not_sequence "a@x.com" "F2" stOneCal (by decide)
      (by decide)).1,
   (c7_amended_update_writes_scalar_not_sequence "a@x.com" "F2" stOneCal (by decide)
      (by decide)).2.1⟩

/-! ## C8 -/

/-- C8: GET /check-login never produces an error response: its status is
200 for every session and store; an absent or falsy session claim, a
missing record, and a falsy stored password all yield
`\x7b loggedIn: false \x7d`, while a resolvable session with a stored
password yields
`\x7b loggedIn: true, email, hasCalendarId, calendars \x7d`. -/
theorem c8_check_login_never_errors (sess : Option String) (st : RedisState) :
    (checkLogin sess st).status = 200 ∧
    ((sess = none ∨ sess = some "") → checkLogin sess st = ⟨200, .checkLoginFalse⟩) ∧
    (∀ e, sess = some e → ((st e).password = none ∨ (st e).password = some "") →
      checkLogin sess st = ⟨200, .checkLoginFalse⟩) ∧
    (∀ e, sess = some e → ¬ e = "" → ∀ enc, (st e).password = some enc → ¬ enc = "" →
      checkLogin sess st = ⟨200, .checkLoginTrue e true (calsOf st e)⟩) := by
  refine ⟨?_, ?_, ?_, ?_⟩
  · rcases sess with _ | e
    · rfl
    · by_cases he : e.isEmpty
      · simp [checkLogin, he]
      · rcases hp : (st e).password with _ | enc
        · simp [checkLogin, he, hp]
        · by_cases henc : enc.isEmpty
          · simp [checkLogin, he, hp, henc]
          · simp [checkLogin, he, hp, henc]
  · rintro (rfl | rfl)
    · rfl
    · simp [checkLogin, empty_isEmpty]
  · rintro e rfl hp
    by_cases he : e.isEmpty
    · simp [checkLogin, he]
    · rcases hp with hp | hp <;> simp [checkLogin, he, hp, empty_isEmpty]
  · rintro e rfl he enc hp henc
    have he2 : e.isEmpty = false := isEmpty_false_of_ne he
    have henc2 : enc.isEmpty = false := isEmpty_false_of_ne henc
    simp [checkLogin, he2, hp, henc2]

/-- C8 witness: the theorem applied at concrete inputs. -/
theorem c8_witness :
    (checkLogin (some "a@x.com") stOneCal).status = 200 ∧
    checkLogin (some "a@x.com") stOneCal =
      ⟨200, .checkLoginTrue "a@x.com" true (calsOf stOneCal "a@x.com")⟩ ∧
    checkLogin none stOneCal = ⟨200, .checkLoginFalse⟩ :=
  ⟨(c8_check_login_never_errors (some "a@x.com") stOneCal).1,
   (c8_check_login_never_errors (some "a@x.com") stOneCal).2.2.2 "a@x.com" rfl (by decide)
     "tok" (by decide) (by decide),
   (c8_check_login_never_errors none stOneCal).2.1 (Or.inl rfl)⟩

/-! ## C9 -/

/-- C9: when the inbox bind probe succeeds but the calendar folder
enumeration fails, /login still succeeds: `listCalendars` swallows the
error and returns the empty list, the response is
`\x7b loggedIn: true, email, calendars: [] \x7d`, and the stored record
is overwritten with the fresh ciphertext and an empty calendar list. -/
theorem c9_login_enum_failure_still_succeeds
    (key iv : List Nat) (email pw : String) (st : RedisState) (sess : Option String)
    (hk : key.length = 32) (hiv : iv.length = 16) :
    login key iv email pw (.ok ()) (.error ()) st sess =
      (⟨200, .loginOk email []⟩,
       setPasswordAndCals st email
         (String.mk (encryptRaw key iv (utf8Bytes (credsJson email pw)))) [],
       some email) ∧
    (setPasswordAndCals st email
        (String.mk (encryptRaw key iv (utf8Bytes (credsJson email pw)))) [] email).calendarIds =
      some [] ∧
    (setPasswordAndCals st email
        (String.mk (encryptRaw key iv (utf8Bytes (credsJson email pw)))) [] email).password =
      some (String.mk (encryptRaw key iv (utf8Bytes (credsJson email pw)))) := by
  have henc : encrypt key iv (utf8Bytes (credsJson email pw)) =
      .ok (String.mk (encryptRaw key iv (utf8Bytes (credsJson email pw)))) := by
    unfold encrypt
    rw [if_neg (by simp [hk]), if_neg (by simp [hiv])]
  refine ⟨?_, by simp [setPasswordAndCals], by simp [setPasswordAndCals]⟩
  unfold login
  rw [henc]
  rfl

/-- C9 witness: the theorem applied at concrete inputs. -/
theorem c9_witness :
    login key0 iv0 "a@x.com" "p" (.ok ()) (.error ()) emptyState none =
      (⟨200, .loginOk "a@x.com" []⟩,
       setPasswordAndCals emptyState "a@x.com"
         (String.mk (encryptRaw key0 iv0 (utf8Bytes (credsJson "a@x.com" "p")))) [],
       some "a@x.com") :=
  (c9_login_enum_failure_still_succeeds key0 iv0 "a@x.com" "p" emptyState none
    (by decide) (by decide)).1

/-! ## C10 -/

/-- C10: /add-calendar and /delete-calendar write only the `calendarIds`
field of the addressed record: the password field and the scalar
calendarId field of that record, and every record of any other email, are
unchanged, on the success path and on the validation failure path
alike. -/
theorem c10_add_delete_frame (email : String) (cid cname : Option String) (st : RedisState) :
    (∀ e, ¬ e = email → (addCalendar email cid cname st).2 e = st e) ∧
    ((addCalendar email cid cname st).2 email).password = (st email).password ∧
    ((addCalendar email cid cname st).2 email).calendarId = (st email).calendarId ∧
    (∀ e, ¬ e = email → (deleteCalendar email cid st).2 e = st e) ∧
    ((deleteCalendar email cid st).2 email).password = (st email).password ∧
    ((deleteCalendar email cid st).2 email).calendarId = (st email).calendarId := by
  have hadd : (addCalendar email cid cname st).2 = st ∨
      ∃ cals, (addCalendar email cid cname st).2 = setCalendarIds st email cals := by
    rcases cid with _ | c
    · exact Or.inl rfl
    · rcases cname with _ | n
      · exact Or.inl rfl
      · by_cases hc : c.isEmpty ∨ n.isEmpty
        · left
          simp [addCalendar, hc]
        · right
          exact ⟨calsOf st email ++ [⟨c, n⟩], by simp [addCalendar, hc]⟩
  have hdel : (deleteCalendar email cid st).2 = st ∨
      ∃ cals, (deleteCalendar email cid st).2 = setCalendarIds st email cals := by
    rcases cid with _ | c
    · exact Or.inl rfl
    · by_cases hc : c.isEmpty
      · left
        simp [deleteCalendar, hc]
      · right
        exact ⟨(calsOf st email).filter (fun k => k.id ≠ c), by simp [deleteCalendar, hc]⟩
  refine ⟨?_, ?_, ?_, ?_, ?_, ?_⟩
  · intro e he
    rcases hadd with h | ⟨cals, h⟩
    · rw [h]
    · rw [h]
      exact setCalendarIds_frame st email cals e he
  · rcases hadd with h | ⟨cals, h⟩
    · rw [h]
    · rw [h]
      exact setCalendarIds_password st email cals
  · rcases hadd with h | ⟨cals, h⟩
    · rw [h]
    · rw [h]
      exact setCalendarIds_calendarId st email cals
  · intro e he
    rcases hdel with h | ⟨cals, h⟩
    · rw [h]
    · rw [h]
      exact setCalendarIds_frame st email cals e he
  · rcases hdel with h | ⟨cals, h⟩
    · rw [h]
    · rw [h]
      exact setCalendarIds_password st email cals
  · rcases hdel with h | ⟨cals, h⟩
    · rw [h]
    · rw [h]
      exact setCalendarIds_calendarId st email cals

/-- C10 witness: the theorem applied at concrete inputs. -/
theorem c10_witness :
    (addCalendar "a@x.com" (some "F2") (some "Team") stOneCal).2 "b@y.com" =
      stOneCal "b@y.com" ∧
    ((addCalendar "a@x.com" (some "F2") (some "Team") stOneCal).2 "a@x.com").password =
      (stOneCal "a@x.com").password ∧
    ((deleteCalendar "a@x.com" (some "F1") stOneCal).2 "a@x.com").password =
      (stOneCal "a@x.com").password :=
  ⟨(c10_add_delete_frame "a@x.com" (some "F2") (some "Team") stOneCal).1 "b@y.com"
     (by decide),
   (c10_add_delete_frame "a@x.com" (some "F2") (some "Team") stOneCal).2.1,
   (c10_add_delete_frame "a@x.com" (some "F1") none stOneCal).2.2.2.2.1⟩

/-! ## C6 -/

/-- C6 counterexample: the empty calendar id is not present in the stored
sequence, yet removing it answers 400 (a validation error), not the
claimed no-op success: JavaScript truthiness rejects the empty string
before the registry operation runs. -/
theorem c6_counterexample :
    (deleteCalendar "a@x.com" (some "") stOneCal).1 = ⟨400, .opFail "Calendar ID is required"⟩ ∧
    (calsOf stOneCal "a@x.com").all (fun c => c.id ≠ "") = true ∧
    (deleteCalendar "a@x.com" (some "") stOneCal).1 ≠
      ⟨200, .opOk "Calendar deleted successfully"⟩ := by
  refine ⟨by decide, by decide, by decide⟩

/-- C6 amended: remove is idempotent for every email and id (response and
resulting store of a second identical call equal those of the first), and
removing an id that is absent from the stored sequence is a no-op success
provided the id is nonempty (an empty id is rejected with 400 by the body
validation before the registry operation). -/
theorem c6_amended_remove_idempotent_noop (email : String) (cid : Option String)
    (st : RedisState) :
    ((deleteCalendar email cid (deleteCalendar email cid st).2).1 =
        (deleteCalendar email cid st).1 ∧
      (deleteCalendar email cid (deleteCalendar email cid st).2).2 =
        (deleteCalendar email cid st).2) ∧
    (∀ c : String, ¬ c = "" → (calsOf st email).all (fun k => k.id ≠ c) = true →
      (deleteCalendar email (some c) st).1 = ⟨200, .opOk "Calendar deleted successfully"⟩ ∧
      calsOf (deleteCalendar email (some c) st).2 email = calsOf st email) := by
  constructor
  · rcases cid with _ | c
    · exact ⟨rfl, rfl⟩
    · by_cases hc : c.isEmpty
      · constructor
        · simp [deleteCalendar, hc]
        · simp [deleteCalendar, hc]
      · have h1 : (deleteCalendar email (some c) st).2 =
            setCalendarIds st email ((calsOf st email).filter (fun k => k.id ≠ c)) := by
          simp [deleteCalendar, hc]
        have h2 : ∀ st3 : RedisState, (deleteCalendar email (some c) st3).2 =
            setCalendarIds st3 email ((calsOf st3 email).filter (fun k => k.id ≠ c)) := by
          intro st3
          simp [deleteCalendar, hc]
        have hfilt : ((calsOf st email).filter (fun k => k.id ≠ c)).filter
            (fun k => k.id ≠ c) = (calsOf st email).filter (fun k => k.id ≠ c) := by
          rw [List.filter_filter]
          simp only [Bool.and_self]
        constructor
        · simp [deleteCalendar, hc]
        · rw [h2, h1, calsOf_setCalendarIds, hfilt]
          funext e
          by_cases he : e = email
          · subst he
            simp [setCalendarIds]
          · simp [setCalendarIds, he]
  · intro c hc hall
    have hc2 : c.isEmpty = false := isEmpty_false_of_ne hc
    have hfilter : (calsOf st email).filter (fun k => k.id ≠ c) = calsOf st email := by
      rw [List.filter_eq_self]
      intro a ha
      have := List.all_eq_true.mp hall a ha
      simpa using this
    constructor
    · simp [deleteCalendar, hc2]
    · simp [deleteCalendar, hc2, calsOf_setCalendarIds, hfilter]
      intro a ha
      have := List.all_eq_true.mp hall a ha
      simpa using this

/-- C6 witness: the amended theorem applied at concrete inputs. -/
theorem c6_witness :
    (deleteCalendar "a@x.com" (some "F1") (deleteCalendar "a@x.com" (some "F1") stOneCal).2).2 =
      (deleteCalendar "a@x.com" (some "F1") stOneCal).2 ∧
    (deleteCalendar "a@x.com" (some "F2") stOneCal).1 =
      ⟨200, .opOk "Calendar deleted successfully"⟩ ∧
    calsOf (deleteCalendar "a@x.com" (some "F2") stOneCal).2 "a@x.com" =
      calsOf stOneCal "a@x.com" :=
  ⟨(c6_amended_remove_idempotent_noop "a@x.com" (some "F1") stOneCal).1.2,
   ((c6_amended_remove_idempotent_noop "a@x.com" (some "F1") stOneCal).2 "F2" (by decide)
     (by decide)).1,
   ((c6_amended_remove_idempotent_noop "a@x.com" (some "F1") stOneCal).2 "F2" (by decide)
     (by decide)).2⟩

end EwsVault
